import Mathlib

set_option maxRecDepth 8000

/-!
Verification development for crawl_and_verify.py, a shader include checker.
The program text is embedded shallowly over List Char: file contents and
filesystem paths are character lists, the regex pipeline of
get_includes_from_shader is an explicit scanner with the exact semantics of
the three patterns used by the source, the posixpath functions are translated
from CPython, and difflib.SequenceMatcher is translated from the CPython
standard library (autojunk included).  The os.walk result is a parameter, a
list of pairs of a directory path and its file names, and file reading is a
parameter of type path to Option content, where none models an unreadable or
undecodable file (the except branch of the source).

Scanners that consume a data-dependent amount of input are written with a
fuel argument so that they are structurally recursive and reduce inside the
kernel; every entry point passes fuel strictly larger than the input length,
and every recursive call consumes at least one character per unit of fuel, so
the zero-fuel branch is unreachable from the entry points.
-/

/-- Characters matched by the regex class backslash-s of CPython on str
patterns: the six ASCII whitespace characters plus the unicode whitespace
code points recognized by the re module. -/
def isPySpace (c : Char) : Bool :=
  decide (c.toNat = 32 ∨ c.toNat = 9 ∨ c.toNat = 10 ∨ c.toNat = 11 ∨
    c.toNat = 12 ∨ c.toNat = 13 ∨ c.toNat = 28 ∨ c.toNat = 29 ∨
    c.toNat = 30 ∨ c.toNat = 31 ∨ c.toNat = 133 ∨ c.toNat = 160 ∨
    c.toNat = 5760 ∨ (8192 ≤ c.toNat ∧ c.toNat ≤ 8202) ∨ c.toNat = 8232 ∨
    c.toNat = 8233 ∨ c.toNat = 8239 ∨ c.toNat = 8287 ∨ c.toNat = 12288)

/-- Matches a literal character sequence at the head of the input and returns
the remainder, as the regex engine does for a fixed word such as include. -/
def stripLit : List Char → List Char → Option (List Char)
  | [], rest => some rest
  | _ :: _, [] => none
  | c :: cs, d :: rest => if d = c then stripLit cs rest else none

/-- Continuation of the non-greedy capture group (.+?) of the include pattern
after its forced first character: consume characters until the first closing
delimiter (a double quote or a greater-than sign, the class [">]); a newline
or the end of input aborts the match, since dot does not match newline. -/
def capGo : List Char → Option (List Char × List Char)
  | [] => none
  | c :: rest =>
    if c = '"' ∨ c = '>' then some ([], rest)
    else if c = '\n' then none
    else
      match capGo rest with
      | some (t, r) => some (c :: t, r)
      | none => none

/-- Non-greedy capture (.+?) followed by the closing class [">]: at least one
character is consumed (even if it is itself a quote or bracket), then the
capture ends at the first closing delimiter. -/
def captureTarget : List Char → Option (List Char × List Char)
  | [] => none
  | c :: rest =>
    if c = '\n' then none
    else
      match capGo rest with
      | some (t, r) => some (c :: t, r)
      | none => none

/-- Attempts the include pattern of the source at the head of the input.
The pattern is hash, optional whitespace, the word include, optional
whitespace, an opening delimiter from the class with a double quote and a
less-than sign, the non-greedy capture, and a closing delimiter from the
class with a double quote and a greater-than sign.  The two whitespace runs
are maximal: a shorter run would place a whitespace character where the
following literal is required, so the regex engine cannot backtrack into
them. -/
def matchIncludeAt : List Char → Option (List Char × List Char)
  | [] => none
  | c :: rest =>
    if c = '#' then
      match stripLit ("include".data) (rest.dropWhile isPySpace) with
      | none => none
      | some r2 =>
        match r2.dropWhile isPySpace with
        | [] => none
        | d :: r4 => if d = '"' ∨ d = '<' then captureTarget r4 else none
    else none

theorem dropWhile_length_le (p : Char → Bool) (l : List Char) :
    (l.dropWhile p).length ≤ l.length := by
  induction l with
  | nil => simp [List.dropWhile]
  | cons c cs ih =>
    simp only [List.dropWhile, List.length_cons]
    split
    · omega
    · simp

/-- Fueled form of the left-to-right non-overlapping scan of re.findall with
the include pattern: at each position the pattern is attempted; on success
the captured target is recorded and scanning resumes after the match,
otherwise scanning advances one character.  Each match consumes at least one
character, so fuel larger than the input length never runs out. -/
def findIncludesFuel : Nat → List Char → List (List Char)
  | 0, _ => []
  | _, [] => []
  | fuel + 1, c :: cs =>
    match matchIncludeAt (c :: cs) with
    | some (t, r) => t :: findIncludesFuel fuel r
    | none => findIncludesFuel fuel cs

/-- Scan of re.findall with the include pattern over the whole input. -/
def findIncludes (l : List Char) : List (List Char) :=
  findIncludesFuel (l.length + 1) l

/-- Fueled substitution of the MULTILINE pattern of two slashes followed by a
non-greedy dot-star and an end anchor, with the empty replacement: every
occurrence of two slashes is removed together with the rest of its line; the
newline itself is kept, because the end anchor is zero width and dot does not
match newline. -/
def stripLineFuel : Nat → List Char → List Char
  | 0, _ => []
  | _, [] => []
  | fuel + 1, c :: cs =>
    if c = '/' ∧ cs.head? = some '/' then
      stripLineFuel fuel (cs.dropWhile (fun d => d ≠ '\n'))
    else c :: stripLineFuel fuel cs

/-- Removal of all single line comments, the first re.sub of the source. -/
def stripLineComments (l : List Char) : List Char :=
  stripLineFuel (l.length + 1) l

/-- Scans for the closing star-slash of a block comment and returns the
remainder after its first occurrence, the target of the non-greedy dot-star
with DOTALL. -/
def findCloser : List Char → Option (List Char)
  | [] => none
  | c :: cs =>
    if c = '*' ∧ cs.head? = some '/' then some cs.tail
    else findCloser cs

/-- Fueled substitution of the DOTALL pattern slash-star, non-greedy
dot-star, star-slash, with the empty replacement: each opener is removed
together with everything up to and including the nearest following closer; an
opener with no following closer is left in place and scanning continues one
character further. -/
def stripBlockFuel : Nat → List Char → List Char
  | 0, _ => []
  | _, [] => []
  | fuel + 1, c :: cs =>
    if c = '/' ∧ cs.head? = some '*' then
      match findCloser cs.tail with
      | some after => stripBlockFuel fuel after
      | none => c :: stripBlockFuel fuel cs
    else c :: stripBlockFuel fuel cs

/-- Removal of all block comments, the second re.sub of the source. -/
def stripBlockComments (l : List Char) : List Char :=
  stripBlockFuel (l.length + 1) l

/-- Extractor of get_includes_from_shader on decoded content: remove single
line comments, then block comments, then collect every include target, in
order, exactly as the three regex operations of the source do. -/
def extract_includes (content : List Char) : List (List Char) :=
  findIncludes (stripBlockComments (stripLineComments content))

/-- Embedding of get_includes_from_shader: the argument models the outcome of
opening and reading the file, where none is any exception of the try block
(the source prints the error and returns the empty list in that case). -/
def get_includes_from_shader : Option (List Char) → List (List Char)
  | none => []
  | some content => extract_includes content

/-- SPEC side definition for claim C1, not a translation of the code.
Modelled from the spec: a directive inside a comment must never be extracted,
where comments follow the usual source code lexing, in one pass: two slashes
start a comment running to the end of the line unless they are inside a block
comment, and slash-star starts a comment running to the nearest star-slash
(inside which two slashes are inert); an unterminated block comment runs to
the end of the input.  A directive is commented exactly when this stripper
erases it. -/
def stripCommentsSpecFuel : Nat → List Char → List Char
  | 0, _ => []
  | _, [] => []
  | fuel + 1, c :: cs =>
    if c = '/' ∧ cs.head? = some '/' then
      stripCommentsSpecFuel fuel (cs.dropWhile (fun d => d ≠ '\n'))
    else if c = '/' ∧ cs.head? = some '*' then
      match findCloser cs.tail with
      | some after => stripCommentsSpecFuel fuel after
      | none => []
    else c :: stripCommentsSpecFuel fuel cs

/-- Entry point of the spec side comment stripper for claim C1. -/
def stripCommentsSpec (l : List Char) : List Char :=
  stripCommentsSpecFuel (l.length + 1) l

/-- Content whose only include directive lies strictly inside a block
comment: the block opens on the first line and closes with the star-slash on
the third line, and the directive sits on the second line, between them. -/
def c1FailingContent : List Char := "/*\n#include \"x\"\n// */\n".data

example : extract_includes c1FailingContent = ["x".data] := by decide
example : findIncludes (stripCommentsSpec c1FailingContent) = [] := by decide

theorem stripLit_append {lit l r : List Char} (h : stripLit lit l = some r) :
    l = lit ++ r := by
  induction lit generalizing l with
  | nil =>
    simp only [stripLit, Option.some.injEq] at h
    simp [h]
  | cons c cs ih =>
    cases l with
    | nil => simp [stripLit] at h
    | cons d ds =>
      simp only [stripLit] at h
      split at h
      · rename_i hd
        subst hd
        simp [ih h]
      · exact absurd h (by simp)

theorem capGo_decomp {l t r : List Char} (h : capGo l = some (t, r)) :
    ∃ e, (e = '"' ∨ e = '>') ∧ l = t ++ e :: r := by
  induction l generalizing t r with
  | nil => simp [capGo] at h
  | cons c cs ih =>
    simp only [capGo] at h
    split at h
    · rename_i hc
      simp only [Option.some.injEq, Prod.mk.injEq] at h
      exact ⟨c, hc, by simp [← h.1, ← h.2]⟩
    · split at h
      · exact absurd h (by simp)
      · cases hg : capGo cs with
        | none => rw [hg] at h; exact absurd h (by simp)
        | some p =>
          obtain ⟨t0, r0⟩ := p
          rw [hg] at h
          simp only [Option.some.injEq, Prod.mk.injEq] at h
          obtain ⟨e, he, heq⟩ := ih hg
          exact ⟨e, he, by simp [← h.1, ← h.2, heq]⟩

theorem captureTarget_decomp {l t r : List Char}
    (h : captureTarget l = some (t, r)) :
    ∃ e, (e = '"' ∨ e = '>') ∧ l = t ++ e :: r ∧ t ≠ [] := by
  cases l with
  | nil => simp [captureTarget] at h
  | cons c cs =>
    simp only [captureTarget] at h
    split at h
    · exact absurd h (by simp)
    · cases hg : capGo cs with
      | none => rw [hg] at h; exact absurd h (by simp)
      | some p =>
        obtain ⟨t0, r0⟩ := p
        rw [hg] at h
        simp only [Option.some.injEq, Prod.mk.injEq] at h
        obtain ⟨e, he, heq⟩ := capGo_decomp hg
        refine ⟨e, he, ?_, ?_⟩
        · simp [← h.1, ← h.2, heq]
        · simp [← h.1]

theorem matchIncludeAt_decomp {l t r : List Char}
    (h : matchIncludeAt l = some (t, r)) :
    ∃ w1 w2 o e, (o = '"' ∨ o = '<') ∧ (e = '"' ∨ e = '>') ∧
      (∀ x ∈ w1, isPySpace x = true) ∧ (∀ x ∈ w2, isPySpace x = true) ∧
      t ≠ [] ∧
      l = '#' :: (w1 ++ "include".data ++ (w2 ++ o :: (t ++ e :: r))) := by
  cases l with
  | nil => simp [matchIncludeAt] at h
  | cons c cs =>
    simp only [matchIncludeAt] at h
    split at h
    · rename_i hc
      cases hs : stripLit ("include".data) (cs.dropWhile isPySpace) with
      | none => rw [hs] at h; exact absurd h (by simp)
      | some r2 =>
        rw [hs] at h
        simp only at h
        cases hd : r2.dropWhile isPySpace with
        | nil => rw [hd] at h; exact absurd h (by simp)
        | cons d r4 =>
          rw [hd] at h
          simp only at h
          split at h
          · rename_i hdelim
            subst hc
            obtain ⟨e, he, heq, hne⟩ := captureTarget_decomp h
            refine ⟨cs.takeWhile isPySpace, r2.takeWhile isPySpace, d, e,
              hdelim, he, ?_, ?_, hne, ?_⟩
            · intro x hx
              exact List.mem_takeWhile_imp hx
            · intro x hx
              exact List.mem_takeWhile_imp hx
            · have hcs := List.takeWhile_append_dropWhile isPySpace cs
              have hr2 := List.takeWhile_append_dropWhile isPySpace r2
              calc ('#' :: cs : List Char)
                  = '#' :: (cs.takeWhile isPySpace ++ cs.dropWhile isPySpace) := by
                    rw [hcs]
                _ = '#' :: (cs.takeWhile isPySpace ++ ("include".data ++ r2)) := by
                    rw [stripLit_append hs]
                _ = '#' :: (cs.takeWhile isPySpace ++ ("include".data ++
                      (r2.takeWhile isPySpace ++ r2.dropWhile isPySpace))) := by
                    rw [hr2]
                _ = '#' :: (cs.takeWhile isPySpace ++ ("include".data ++
                      (r2.takeWhile isPySpace ++ (d :: (t ++ e :: r))))) := by
                    rw [hd, heq]
                _ = '#' :: (cs.takeWhile isPySpace ++ "include".data ++
                      (r2.takeWhile isPySpace ++ d :: (t ++ e :: r))) := by
                    simp [List.append_assoc]
          · exact absurd h (by simp)
    · exact absurd h (by simp)

/-- C1: the claim that a directive inside a comment never appears in the
output is the documented intent of the source (strip all comments before
finding includes), but the code strips single line comments first, so the two
slashes inside the block comment of c1FailingContent swallow the closing
star-slash, the block pattern no longer matches, and the directive that lies
strictly inside the block comment is extracted.  The first conjunct evaluates
the code at the failing input; the second shows that under the spec side
comment semantics the content has no directive at all, hence the extracted
target comes from a commented directive. -/
theorem c1_commented_directive_extracted :
    extract_includes c1FailingContent = ["x".data] ∧
    findIncludes (stripCommentsSpec c1FailingContent) = [] := by
  exact ⟨by decide, by decide⟩

/-- C6 counterexample: a directive whose opening delimiter is a double quote
and whose closing delimiter is a greater-than sign is captured, because the
source pattern uses independent character classes, so the claim that only a
matching pair of delimiters is captured is false. -/
theorem c6_mismatched_delimiters_captured :
    extract_includes ("#include \"x>".data) = ["x".data] := by decide

/-- C6 amended: the extractor captures a target exactly when it is delimited
by an opening double quote or less-than sign and a closing double quote or
greater-than sign, in any combination, mismatched pairs included.  The first
conjunct shows every successful match has this shape (so nothing outside
these delimiter classes is captured); the remaining conjuncts show all four
opening and closing combinations are captured. -/
theorem c6_delimiter_classes :
    (∀ l t r, matchIncludeAt l = some (t, r) →
      ∃ w1 w2 o e, (o = '"' ∨ o = '<') ∧ (e = '"' ∨ e = '>') ∧
        (∀ x ∈ w1, isPySpace x = true) ∧ (∀ x ∈ w2, isPySpace x = true) ∧
        t ≠ [] ∧
        l = '#' :: (w1 ++ "include".data ++ (w2 ++ o :: (t ++ e :: r)))) ∧
    extract_includes ("#include \"x\"".data) = ["x".data] ∧
    extract_includes ("#include <x>".data) = ["x".data] ∧
    extract_includes ("#include \"x>".data) = ["x".data] ∧
    extract_includes ("#include <x\"".data) = ["x".data] := by
  refine ⟨fun l t r h => matchIncludeAt_decomp h, ?_, ?_, ?_, ?_⟩
  · decide
  · decide
  · decide
  · decide

/-- Witness for the universally quantified conjunct of c6_delimiter_classes,
instantiated at a concrete successful match. -/
theorem c6_delimiter_classes_witness :
    ∃ w1 w2 o e, (o = '"' ∨ o = '<') ∧ (e = '"' ∨ e = '>') ∧
      (∀ x ∈ w1, isPySpace x = true) ∧ (∀ x ∈ w2, isPySpace x = true) ∧
      ("y".data ≠ ([] : List Char)) ∧
      "#include <y>".data =
        '#' :: (w1 ++ "include".data ++ (w2 ++ o :: ("y".data ++ e :: []))) :=
  c6_delimiter_classes.1 ("#include <y>".data) ("y".data) [] (by decide)

/-- Python str.split on the single separator character slash: splitting the
empty string gives one empty piece, and every slash begins a new piece. -/
def splitSlash : List Char → List (List Char)
  | [] => [[]]
  | c :: cs =>
    if c = '/' then [] :: splitSlash cs
    else
      match splitSlash cs with
      | [] => [[c]]
      | h :: t => (c :: h) :: t

/-- Joining a list of pieces with single slashes, the inverse of splitSlash
on slash free pieces; used for the str.join calls of posixpath. -/
def intercalateSlash : List (List Char) → List Char
  | [] => []
  | [x] => x
  | x :: xs => x ++ '/' :: intercalateSlash xs

/-- Test for a leading slash, the startswith(sep) checks of posixpath. -/
def startsWithSlash (p : List Char) : Bool := decide (p.head? = some '/')

/-- Test for a leading dot, the startswith check of the directory skip in
crawl_and_verify. -/
def startsWithDot (s : List Char) : Bool := decide (s.head? = some '.')

/-- posixpath.join restricted to two arguments, as the source calls it: an
absolute second argument replaces the first, otherwise the two are glued with
a slash unless the first is empty or already ends in one. -/
def pyJoin (a b : List Char) : List Char :=
  if startsWithSlash b then b
  else if a = [] ∨ a.getLast? = some '/' then a ++ b
  else a ++ '/' :: b

/-- One step of the component loop of posixpath.normpath: empty and single
dot components vanish; a double dot is kept when the path is relative and
nothing remains to pop, or when the last kept component is itself a double
dot, otherwise it pops the last kept component (and vanishes at the root of
an absolute path); every other component is appended. -/
def normStep (isAbs : Bool) (s : List (List Char)) (comp : List Char) :
    List (List Char) :=
  if comp = [] ∨ comp = ['.'] then s
  else if comp = ['.', '.'] then
    if (isAbs = false ∧ s = []) ∨ (s ≠ [] ∧ s.getLast? = some ['.', '.']) then
      s ++ [comp]
    else if s ≠ [] then s.dropLast
    else s
  else s ++ [comp]

/-- Number of initial slashes kept by posixpath.normpath: POSIX keeps exactly
two leading slashes, one otherwise; three or more collapse to one. -/
def initSlashes (p : List Char) : Nat :=
  if p.take 2 = ['/', '/'] ∧ p.take 3 ≠ ['/', '/', '/'] then 2
  else if p.head? = some '/' then 1
  else 0

/-- posixpath.normpath translated from CPython: split on slashes, run the
component loop, reassemble behind the kept initial slashes, and print a
single dot for an empty result. -/
def normpath (p : List Char) : List Char :=
  if p = [] then ['.']
  else
    let comps := List.foldl (normStep (startsWithSlash p)) [] (splitSlash p)
    let out := List.replicate (initSlashes p) '/' ++ intercalateSlash comps
    if out = [] then ['.'] else out

/-- posixpath.abspath with the working directory as an explicit parameter: a
relative path is joined to cwd and normalized; since pyJoin returns an
absolute second argument unchanged, the branch on absoluteness of the
argument collapses into the join. -/
def abspath (cwd p : List Char) : List Char := normpath (pyJoin cwd p)

/-- Nonempty pieces of the slash split, the filtered component lists used by
posixpath.relpath. -/
def nonemptyParts (p : List Char) : List (List Char) :=
  (splitSlash p).filter (fun x => decide (x ≠ []))

/-- Length of the longest common leading run of two component lists, the
length of os.path.commonprefix of the two lists (commonprefix compares the
lexicographic minimum and maximum of its arguments, which for exactly two
sequences is their plain common prefix). -/
def commonLen : List (List Char) → List (List Char) → Nat
  | [], _ => 0
  | _ :: _, [] => 0
  | x :: xs, y :: ys => if x = y then commonLen xs ys + 1 else 0

/-- posixpath.relpath translated from CPython, with the working directory
explicit: both arguments are made absolute and split into nonempty
components, the shared lead is dropped, one double dot is emitted per
remaining component of the start, and the pieces are joined with slashes (the
join of the source degenerates to an interleaving because the components are
nonempty and slash free); an empty relation prints as a single dot. -/
def relpath (path start cwd : List Char) : List Char :=
  let sList := nonemptyParts (abspath cwd start)
  let pList := nonemptyParts (abspath cwd path)
  let i := commonLen sList pList
  let rel := List.replicate (sList.length - i) ['.', '.'] ++ pList.drop i
  if rel = [] then ['.'] else intercalateSlash rel

/-- posixpath.basename: everything after the last slash, possibly empty. -/
def pyBasename (p : List Char) : List Char := (splitSlash p).getLastD []

/-- posixpath.dirname: everything up to and including the last slash; unless
that head consists only of slashes, trailing slashes are then stripped. -/
def pyDirname (p : List Char) : List Char :=
  let segs := splitSlash p
  let head :=
    if segs.length ≤ 1 then [] else intercalateSlash segs.dropLast ++ ['/']
  if head = [] then []
  else if head.all (fun c => decide (c = '/')) then head
  else (head.reverse.dropWhile (fun c => decide (c = '/'))).reverse

/-- Extension part of posixpath.splitext: the suffix from the last dot of the
final path component, unless every character of that component before the
last dot is itself a dot (leading dots never start an extension). -/
def pySplitextExt (p : List Char) : List Char :=
  let base := pyBasename p
  match base.reverse.findIdx? (fun c => decide (c = '.')) with
  | none => []
  | some j =>
    let k := base.length - 1 - j
    if (base.take k).any (fun c => decide (c ≠ '.')) then base.drop k else []

/-- PurePosixPath parsing followed by as_posix, used by the source to print a
suggested path with forward slashes: empty and single dot segments disappear,
a leading run of exactly two slashes is kept as a double slash root, any
other leading slash as a single slash root, and an empty result prints as a
single dot. -/
def asPosix (p : List Char) : List Char :=
  let root :=
    if p.take 2 = ['/', '/'] ∧ p.take 3 ≠ ['/', '/', '/'] then ['/', '/']
    else if p.head? = some '/' then ['/']
    else []
  let parts := (splitSlash p).filter (fun x => decide (x ≠ [] ∧ x ≠ ['.']))
  let out := root ++ intercalateSlash parts
  if out = [] then ['.'] else out

example : normpath ("a/b/../c".data) = "a/c".data := by decide
example : normpath ("//a".data) = "//a".data := by decide
example : normpath ("///a".data) = "/a".data := by decide
example : normpath ("a/..".data) = ".".data := by decide
example : relpath ("a/f".data) ("a/b/..".data) ("/c".data) = "f".data := by decide
example : relpath (normpath (pyJoin "root".data ".hidden".data)) ("root".data)
    ("/c".data) = ".hidden".data := by decide
example : relpath ("lib/commom.h".data) ("shaders".data) ("/c".data) =
    "../lib/commom.h".data := by decide
example : pyDirname ("s/a.glsl".data) = "s".data := by decide
example : pySplitextExt (".foo.h".data) = ".h".data := by decide
example : pySplitextExt (".hidden".data) = [] := by decide
example : pyBasename ("a/".data) = [] := by decide
example : asPosix ("../lib/x.h".data) = "../lib/x.h".data := by decide

example : relpath ("..".data) (".".data) ("/c".data) = "..".data := by decide
example : relpath ("../a".data) (".".data) ("/c".data) = "../a".data := by decide
example : relpath ("a".data) ([]) ("/c".data) = "a".data := by decide
example : relpath ("x".data) ("a/".data) ("/c".data) = "../x".data := by decide
example : relpath ("a//b/./c".data) ("a".data) ("/c".data) = "b/c".data := by
  decide
example : relpath ("/x".data) ("a".data) ("/c".data) = "../../x".data := by
  decide
example : relpath ("a/b".data) ("a/b".data) ("/c".data) = ".".data := by decide
example : normpath ("..//a/".data) = "../a".data := by decide
example : normpath ("/..".data) = "/".data := by decide
example : normpath ("a/../../b".data) = "../b".data := by decide
example : pyDirname ("a".data) = [] := by decide
example : pyDirname ("//a".data) = "//".data := by decide
example : pyDirname ("a//".data) = "a".data := by decide
example : asPosix ("//x/y".data) = "//x/y".data := by decide
example : asPosix ([]) = ".".data := by decide
example : asPosix ("a/.//b/..".data) = "a/b/..".data := by decide

/-- Appends one position to the position list of a character in the b2j
mapping of SequenceMatcher, keeping insertion order and ascending
positions. -/
def addPos : List (Char × List Nat) → Char → Nat → List (Char × List Nat)
  | [], c, i => [(c, [i])]
  | (d, js) :: rest, c, i =>
    if d = c then (d, js ++ [i]) :: rest else (d, js) :: addPos rest c i

/-- Raw b2j mapping built by the chain_b step of SequenceMatcher: each
character of b mapped to its positions in ascending order. -/
def b2jRaw (b : List Char) : List (Char × List Nat) :=
  b.enum.foldl (fun l p => addPos l p.2 p.1) []

/-- b2j after the purges of chain_b: with isjunk None (as the source calls
it) the explicit junk set is empty, and with autojunk on (the default) every
popular character of a b of at least 200 elements, one whose position count
exceeds one percent plus one, is removed from the mapping. -/
def b2jOf (b : List Char) : List (Char × List Nat) :=
  if 200 ≤ b.length then
    (b2jRaw b).filter (fun p => decide (p.2.length ≤ b.length / 100 + 1))
  else b2jRaw b

/-- Position list of a character, the get call on b2j with default empty. -/
def posOf (b2j : List (Char × List Nat)) (c : Char) : List Nat :=
  match b2j.lookup c with
  | some js => js
  | none => []

/-- Lookup in the j2len row with default zero; the source indexes j minus
one, which for j equal to zero is the Python index minus one, never a key, so
zero. -/
def j2lenGet (m : List (Nat × Nat)) (j : Nat) : Nat :=
  match m.lookup j with
  | some v => v
  | none => 0

/-- Inner loop of find_longest_match for row i of a: the positions of the
character in b are ascending, so the continue below blo is a filter and the
break at bhi a take; runs are extended from the previous row and the best,
strictly longer, run is recorded with its start. -/
def flmRow (j2len : List (Nat × Nat)) (i : Nat) (js : List Nat)
    (blo bhi : Nat) (best : Nat × Nat × Nat) :
    List (Nat × Nat) × (Nat × Nat × Nat) :=
  ((js.filter (fun j => decide (blo ≤ j))).takeWhile
      (fun j => decide (j < bhi))).foldl
    (fun acc j =>
      let k := (if j = 0 then 0 else j2lenGet j2len (j - 1)) + 1
      let best2 :=
        if acc.2.2.2 < k then (i + 1 - k, j + 1 - k, k) else acc.2
      (acc.1 ++ [(j, k)], best2))
    ([], best)

/-- Dynamic programming pass of find_longest_match over rows alo to ahi. -/
def flmLoop (a : List Char) (b2j : List (Char × List Nat))
    (alo ahi blo bhi : Nat) : Nat × Nat × Nat :=
  ((List.range' alo (ahi - alo)).foldl
    (fun st i =>
      flmRow st.1 i (posOf b2j (a.getD i (Char.ofNat 0))) blo bhi st.2)
    (([] : List (Nat × Nat)), (alo, blo, 0))).2

/-- Backward extension loop of find_longest_match over equal non junk
characters; the junk set is empty here, so the predicate is only the
character equality.  The fuel bounds the iterations; besti itself suffices
since besti decreases and stays above alo. -/
def extendLo (a b : List Char) (alo blo : Nat) :
    Nat → Nat × Nat × Nat → Nat × Nat × Nat
  | 0, st => st
  | fuel + 1, (besti, bestj, size) =>
    if alo < besti ∧ blo < bestj ∧
        a.getD (besti - 1) (Char.ofNat 0) = b.getD (bestj - 1) (Char.ofNat 0)
    then extendLo a b alo blo fuel (besti - 1, bestj - 1, size + 1)
    else (besti, bestj, size)

/-- Forward extension loop of find_longest_match over equal non junk
characters; fuel as above, the size grows and is bounded by the window. -/
def extendHi (a b : List Char) (ahi bhi : Nat) :
    Nat → Nat × Nat × Nat → Nat × Nat × Nat
  | 0, st => st
  | fuel + 1, (besti, bestj, size) =>
    if besti + size < ahi ∧ bestj + size < bhi ∧
        a.getD (besti + size) (Char.ofNat 0) =
          b.getD (bestj + size) (Char.ofNat 0)
    then extendHi a b ahi bhi fuel (besti, bestj, size + 1)
    else (besti, bestj, size)

/-- find_longest_match of SequenceMatcher with isjunk None: the dynamic
programming pass, then the two extension loops over equal characters (the
final two junk extension loops of the source never move because the junk set
is empty). -/
def findLongestMatch (a b : List Char) (b2j : List (Char × List Nat))
    (alo ahi blo bhi : Nat) : Nat × Nat × Nat :=
  let st := flmLoop a b2j alo ahi blo bhi
  let st2 := extendLo a b alo blo st.1 st
  extendHi a b ahi bhi (ahi + bhi) st2

/-- Sum of the sizes of all matching blocks, the recursion of
get_matching_blocks restricted to the total (the final sort and merge of
adjacent blocks cannot change the sum).  The fuel bounds the recursion; the
window sum shrinks by at least one on each side of every split, so the fuel
of the entry point below never runs out. -/
def matchSum (a b : List Char) (b2j : List (Char × List Nat)) :
    Nat → Nat → Nat → Nat → Nat → Nat
  | 0, _, _, _, _ => 0
  | fuel + 1, alo, ahi, blo, bhi =>
    let m := findLongestMatch a b b2j alo ahi blo bhi
    if m.2.2 = 0 then 0
    else
      matchSum a b b2j fuel alo m.1 blo m.2.1 + m.2.2 +
        matchSum a b b2j fuel (m.1 + m.2.2) ahi (m.2.1 + m.2.2) bhi

/-- Total matched character count of SequenceMatcher on a and b. -/
def matchesOf (a b : List Char) : Nat :=
  matchSum a b (b2jOf b) (a.length + b.length + 1) 0 a.length 0 b.length

/-- ratio of difflib.SequenceMatcher as an exact rational: twice the matched
total divided by the combined length, and one for two empty sequences, as in
the calculate ratio helper of difflib (the source computes a float; the
comparisons of find_similar_include are modeled on the exact value). -/
def similarity (a b : List Char) : ℚ :=
  if a.length + b.length = 0 then 1
  else Rat.divInt (2 * (matchesOf a b : Int)) ((a.length + b.length : Nat) : Int)

example : matchesOf ("b.h".data) ("a/b.h".data) = 3 := by decide
example : matchesOf ("x/foo.h".data) ("a/foo.h".data) = 6 := by decide
example : matchesOf ([]) ("/".data) = 0 := by decide
example : matchesOf ("abc".data) ("abc".data) = 3 := by decide
example : matchesOf ("ab".data) ("ba".data) = 1 := by decide
example : matchesOf ("abcd".data) ("bcda".data) = 3 := by decide
example : matchesOf ("ana".data) ("banana".data) = 3 := by decide
example : similarity ("b.h".data) ("a/b.h".data) = Rat.divInt 3 4 := by decide
example : similarity ([]) ("/".data) = 0 := by decide
example : similarity ("abc".data) ("abc".data) = 1 := by decide

/-- One iteration of the candidate loop of find_similar_include: a file whose
base name differs from the base name of the original include is skipped; a
candidate with strictly larger similarity than the running maximum replaces
the stored suggestion. -/
def fsiStep (original : List Char) (st : ℚ × Option (List Char))
    (file : List Char) : ℚ × Option (List Char) :=
  if pyBasename original = pyBasename file then
    if st.1 < similarity original file then (similarity original file, some file)
    else st
  else st

/-- find_similar_include translated from the source: scan all files in order,
starting from a running maximum of zero and no suggestion, and return the
stored suggestion. -/
def find_similar_include (original : List Char)
    (all_files : List (List Char)) : Option (List Char) :=
  (all_files.foldl (fsiStep original) (0, none)).2

/-- Invariant of the candidate loop of find_similar_include after processing
the files of pre: the running maximum is nonnegative; while no suggestion is
stored the maximum is still zero and every candidate seen so far has
similarity at most zero; and a stored suggestion is a candidate seen so far
whose similarity is the positive running maximum, maximal among all
candidates seen, with every earlier candidate strictly below it. -/
def fsiInv (m : List Char) (pre : List (List Char))
    (st : ℚ × Option (List Char)) : Prop :=
  0 ≤ st.1 ∧
  (st.2 = none → st.1 = 0 ∧
    ∀ f ∈ pre, pyBasename m = pyBasename f → similarity m f ≤ 0) ∧
  (∀ f, st.2 = some f → f ∈ pre ∧ pyBasename m = pyBasename f ∧
    similarity m f = st.1 ∧ 0 < st.1 ∧
    (∀ g ∈ pre, pyBasename m = pyBasename g → similarity m g ≤ st.1) ∧
    ∃ p1 p2, pre = p1 ++ f :: p2 ∧
      ∀ g ∈ p1, pyBasename m = pyBasename g → similarity m g < st.1)

theorem fsiInv_base (m : List Char) : fsiInv m [] (0, none) := by
  refine ⟨le_refl 0, fun _ => ⟨rfl, by simp⟩, fun f hf => by simp at hf⟩

theorem fsiStep_inv {m : List Char} {pre : List (List Char)}
    {st : ℚ × Option (List Char)} {f : List Char} (h : fsiInv m pre st) :
    fsiInv m (pre ++ [f]) (fsiStep m st f) := by
  obtain ⟨hnn, hnone, hsome⟩ := h
  have hall : ∀ g ∈ pre, pyBasename m = pyBasename g → similarity m g ≤ st.1 := by
    cases hst : st.2 with
    | none =>
      intro g hg hbg
      have h0 := hnone hst
      rw [h0.1]
      exact h0.2 g hg hbg
    | some f1 =>
      exact fun g hg hbg => (hsome f1 hst).2.2.2.2.1 g hg hbg
  by_cases hb : pyBasename m = pyBasename f
  · by_cases hlt : st.1 < similarity m f
    · have hstep : fsiStep m st f = (similarity m f, some f) := by
        simp [fsiStep, hb, hlt]
      rw [hstep]
      refine ⟨le_of_lt (lt_of_le_of_lt hnn hlt), ?_, ?_⟩
      · intro h0
        exact absurd h0 (by simp)
      · intro f0 hf0
        simp only [Option.some.injEq] at hf0
        subst hf0
        refine ⟨List.mem_append_right _ (by simp), hb, rfl,
          lt_of_le_of_lt hnn hlt, ?_, pre, [], by simp, ?_⟩
        · intro g hg hbg
          rcases List.mem_append.mp hg with hg1 | hg2
          · exact le_of_lt (lt_of_le_of_lt (hall g hg1 hbg) hlt)
          · have : g = f := by simpa using hg2
            subst this
            exact le_refl _
        · intro g hg hbg
          exact lt_of_le_of_lt (hall g hg hbg) hlt
    · have hstep : fsiStep m st f = st := by
        simp [fsiStep, hb, hlt]
      rw [hstep]
      refine ⟨hnn, ?_, ?_⟩
      · intro h0
        obtain ⟨hz, hbound⟩ := hnone h0
        refine ⟨hz, ?_⟩
        intro g hg hbg
        rcases List.mem_append.mp hg with hg1 | hg2
        · exact hbound g hg1 hbg
        · have : g = f := by simpa using hg2
          subst this
          rw [← hz]
          exact not_lt.mp hlt
      · intro f0 hf0
        obtain ⟨hmem, hb0, heq, hpos, hballd, p1, p2, hsplit, hstrict⟩ :=
          hsome f0 hf0
        refine ⟨List.mem_append_left _ hmem, hb0, heq, hpos, ?_,
          p1, p2 ++ [f], by simp [hsplit], hstrict⟩
        intro g hg hbg
        rcases List.mem_append.mp hg with hg1 | hg2
        · exact hballd g hg1 hbg
        · have : g = f := by simpa using hg2
          subst this
          exact not_lt.mp hlt
  · have hstep : fsiStep m st f = st := by
      simp [fsiStep, hb]
    rw [hstep]
    refine ⟨hnn, ?_, ?_⟩
    · intro h0
      obtain ⟨hz, hbound⟩ := hnone h0
      refine ⟨hz, ?_⟩
      intro g hg hbg
      rcases List.mem_append.mp hg with hg1 | hg2
      · exact hbound g hg1 hbg
      · have : g = f := by simpa using hg2
        subst this
        exact absurd hbg hb
    · intro f0 hf0
      obtain ⟨hmem, hb0, heq, hpos, hballd, p1, p2, hsplit, hstrict⟩ :=
        hsome f0 hf0
      refine ⟨List.mem_append_left _ hmem, hb0, heq, hpos, ?_,
        p1, p2 ++ [f], by simp [hsplit], hstrict⟩
      intro g hg hbg
      rcases List.mem_append.mp hg with hg1 | hg2
      · exact hballd g hg1 hbg
      · have : g = f := by simpa using hg2
        subst this
        exact absurd hbg hb

theorem fsi_fold (m : List Char) :
    ∀ (F pre : List (List Char)) (st : ℚ × Option (List Char)),
      fsiInv m pre st → fsiInv m (pre ++ F) (F.foldl (fsiStep m) st)
  | [], pre, st, h => by simpa using h
  | f :: F, pre, st, h => by
    have h1 := fsiStep_inv (f := f) h
    have h2 := fsi_fold m F (pre ++ [f]) (fsiStep m st f) h1
    simpa [List.append_assoc] using h2

/-- C4: a suggestion returned by find_similar_include always has exactly the
base name of the missing include; entries with any other base name are
filtered out before scoring, regardless of similarity. -/
theorem c4_suggestion_same_basename (m f : List Char) (F : List (List Char))
    (h : find_similar_include m F = some f) :
    pyBasename f = pyBasename m := by
  have hinv := fsi_fold m F [] (0, none) (fsiInv_base m)
  simp only [List.nil_append] at hinv
  exact ((hinv.2.2 f h).2.1).symm

/-- Witness for c4_suggestion_same_basename at a concrete inventory. -/
theorem c4_suggestion_same_basename_witness :
    pyBasename ("a/foo.h".data) = pyBasename ("x/foo.h".data) :=
  c4_suggestion_same_basename ("x/foo.h".data) ("a/foo.h".data)
    ["a/foo.h".data, "b/bar.h".data] (by decide)

/-- C5 counterexample: for the empty missing include and the inventory with
the single entry consisting of one slash, both base names are empty, so the
candidate set is nonempty, yet the function returns none: the similarity of
the two strings is zero and the running maximum starts at zero under a strict
comparison.  The claim that none is returned exactly when the candidate set
is empty is therefore false. -/
theorem c5_zero_score_counterexample :
    find_similar_include [] [['/']] = none ∧ pyBasename ['/'] = pyBasename [] :=
  ⟨by decide, by decide⟩

/-- C5 amended: find_similar_include returns none exactly when no candidate
(same base name entry) has similarity strictly greater than zero, in
particular when the candidate set is empty; when it returns a suggestion,
that suggestion is a candidate with positive similarity, maximal among all
candidates, and strictly above every candidate that precedes it in the
inventory (first seen wins ties). -/
theorem c5_first_seen_maximum (m : List Char) (F : List (List Char)) :
    (find_similar_include m F = none ↔
      ∀ f ∈ F, pyBasename f = pyBasename m → similarity m f ≤ 0) ∧
    (∀ f, find_similar_include m F = some f →
      f ∈ F ∧ pyBasename f = pyBasename m ∧ 0 < similarity m f ∧
      (∀ g ∈ F, pyBasename g = pyBasename m →
        similarity m g ≤ similarity m f) ∧
      ∃ F1 F2, F = F1 ++ f :: F2 ∧
        ∀ g ∈ F1, pyBasename g = pyBasename m →
          similarity m g < similarity m f) := by
  have hinv := fsi_fold m F [] (0, none) (fsiInv_base m)
  simp only [List.nil_append] at hinv
  constructor
  · constructor
    · intro hn f hf hb
      exact (hinv.2.1 hn).2 f hf hb.symm
    · intro hall
      cases hres : find_similar_include m F with
      | none => rfl
      | some f =>
        obtain ⟨hmem, hb, heq, hpos, _⟩ := hinv.2.2 f hres
        have h1 := hall f hmem hb.symm
        rw [heq] at h1
        exact absurd hpos (not_lt.mpr h1)
  · intro f hf
    obtain ⟨hmem, hb, heq, hpos, hballd, p1, p2, hsplit, hstrict⟩ :=
      hinv.2.2 f hf
    refine ⟨hmem, hb.symm, by rw [heq]; exact hpos, ?_, p1, p2, hsplit, ?_⟩
    · intro g hg hbg
      rw [heq]
      exact hballd g hg hbg.symm
    · intro g hg hbg
      rw [heq]
      exact hstrict g hg hbg.symm

/-- Witness for the suggestion branch of c5_first_seen_maximum at a concrete
inventory with two same name candidates: the first of the two best scoring
entries is returned. -/
theorem c5_first_seen_maximum_witness :
    "a/foo.h".data ∈ ["a/foo.h".data, "b/bar.h".data] ∧
    pyBasename ("a/foo.h".data) = pyBasename ("x/foo.h".data) ∧
    0 < similarity ("x/foo.h".data) ("a/foo.h".data) ∧
    (∀ g ∈ ["a/foo.h".data, "b/bar.h".data],
      pyBasename g = pyBasename ("x/foo.h".data) →
      similarity ("x/foo.h".data) g ≤
        similarity ("x/foo.h".data) ("a/foo.h".data)) ∧
    ∃ F1 F2, ["a/foo.h".data, "b/bar.h".data] = F1 ++ "a/foo.h".data :: F2 ∧
      ∀ g ∈ F1, pyBasename g = pyBasename ("x/foo.h".data) →
        similarity ("x/foo.h".data) g <
          similarity ("x/foo.h".data) ("a/foo.h".data) :=
  (c5_first_seen_maximum ("x/foo.h".data)
    ["a/foo.h".data, "b/bar.h".data]).2 ("a/foo.h".data) (by decide)

/-- Recognized source code extension list of crawl_and_verify. -/
def sourceExts : List (List Char) :=
  [".glsl".data, ".slang".data, ".h".data, ".inc".data, ".params".data,
    ".hlsl".data]

/-- State built by the first pass of crawl_and_verify: the inventory list in
append order, the include mapping as an insertion ordered association list (a
Python dict), and the file paths whose read failed, in print order. -/
structure CrawlState where
  all_files : List (List Char)
  all_includes : List (List Char × List (List Char))
  errors : List (List Char)
deriving DecidableEq

/-- Assignment to a Python dict key: an existing key keeps its insertion
position and is overwritten in place, a new key is appended. -/
def dictSet (d : List (List Char × List (List Char))) (k : List Char)
    (v : List (List Char)) : List (List Char × List (List Char)) :=
  match d with
  | [] => [(k, v)]
  | (k0, v0) :: rest =>
    if k0 = k then (k0, v) :: rest else (k0, v0) :: dictSet rest k v

/-- Resolution shared by the inventory and the include records of the first
pass: the name is joined to the directory of its walk entry, normalized, and
made relative to the crawl root; the working directory parameter feeds the
abspath calls inside relpath. -/
def resolveTo (root cwd dir name : List Char) : List Char :=
  relpath (normpath (pyJoin dir name)) root cwd

/-- Processing of one file name inside one walk entry of the first pass: the
resolved path always joins the inventory; when the extension of the bare name
is recognized the file is read, a failed read is recorded with the full path
and contributes no includes, and the resolved targets are assigned to the
dict key of the file. -/
def scanFile (root cwd : List Char) (read : List Char → Option (List Char))
    (dir : List Char) (st : CrawlState) (file : List Char) : CrawlState :=
  let file_path := resolveTo root cwd dir file
  let files2 := st.all_files ++ [file_path]
  if pySplitextExt file ∈ sourceExts then
    let content := read (pyJoin dir file)
    { all_files := files2,
      all_includes :=
        dictSet st.all_includes file_path
          ((get_includes_from_shader content).map
            (fun inc => resolveTo root cwd dir inc)),
      errors :=
        match content with
        | none => st.errors ++ [pyJoin dir file]
        | some _ => st.errors }
  else { st with all_files := files2 }

/-- Processing of one walk entry of the first pass: a directory whose path
has a component beginning with a dot is skipped entirely, otherwise its files
are processed in order. -/
def walkStep (root cwd : List Char) (read : List Char → Option (List Char))
    (st : CrawlState) (entry : List Char × List (List Char)) : CrawlState :=
  if (splitSlash entry.1).any startsWithDot then st
  else entry.2.foldl (scanFile root cwd read entry.1) st

/-- First pass of crawl_and_verify over the walk result, from the empty
state. -/
def pass1 (root cwd : List Char) (read : List Char → Option (List Char))
    (walk : List (List Char × List (List Char))) : CrawlState :=
  walk.foldl (walkStep root cwd read) ⟨[], [], []⟩

/-- Lines of the printed report, in order: the per file read errors of the
first pass, then for each include record with missing targets a header line
naming the file, and for every missing occurrence one line with the missing
target followed by either a suggestion line or the no suggestion marker. -/
inductive ReportLine where
  | errorLine (path : List Char)
  | headerLine (fp : List Char)
  | missingLine (target : List Char)
  | suggestLine (s : List Char)
  | noSuggestLine
deriving DecidableEq

/-- Second pass output for one include record: the missing list keeps, with
duplicates and in order, the targets absent from the inventory; a nonempty
missing list prints a header, then one line per missing occurrence and one
suggestion line, where a suggestion found by find_similar_include is printed
relative to the directory of the including file in forward slash form. -/
def reportForFile (cwd : List Char) (all_files : List (List Char))
    (ent : List Char × List (List Char)) : List ReportLine :=
  let missing := ent.2.filter (fun x => decide (x ∉ all_files))
  (if missing = [] then [] else [ReportLine.headerLine ent.1]) ++
    missing.flatMap (fun t =>
      ReportLine.missingLine t ::
        match find_similar_include t all_files with
        | some s =>
          [ReportLine.suggestLine (asPosix (relpath s (pyDirname ent.1) cwd))]
        | none => [ReportLine.noSuggestLine])

/-- crawl_and_verify as the printed report: the errors printed during the
first pass, then the verification lines of the second pass, which walks the
include records in insertion order. -/
def crawl_and_verify (root cwd : List Char)
    (read : List Char → Option (List Char))
    (walk : List (List Char × List (List Char))) : List ReportLine :=
  (pass1 root cwd read walk).errors.map ReportLine.errorLine ++
    (pass1 root cwd read walk).all_includes.flatMap
      (reportForFile cwd (pass1 root cwd read walk).all_files)

theorem missingLine_mem_reportForFile {cwd t : List Char}
    {af : List (List Char)} {ent : List Char × List (List Char)}
    (h : ReportLine.missingLine t ∈ reportForFile cwd af ent) : t ∉ af := by
  unfold reportForFile at h
  rcases List.mem_append.mp h with h1 | h2
  · split at h1 <;> simp at h1
  · obtain ⟨t0, ht0, hmem⟩ := List.mem_flatMap.mp h2
    rcases List.mem_cons.mp hmem with h3 | h4
    · have ht : t0 = t := by simpa using h3.symm
      subst ht
      have := List.mem_filter.mp ht0
      exact of_decide_eq_true this.2
    · split at h4 <;> simp at h4

/-- C2: a target whose resolved root relative path is present verbatim in the
inventory is never reported missing: the missing list of every record is the
filter keeping exactly the targets absent from the inventory, and the
inventory and the record targets are produced by the same resolveTo
computation inside pass1. -/
theorem c2_inventory_target_never_missing (root cwd t : List Char)
    (read : List Char → Option (List Char))
    (walk : List (List Char × List (List Char)))
    (hinv : t ∈ (pass1 root cwd read walk).all_files) :
    ReportLine.missingLine t ∉ crawl_and_verify root cwd read walk := by
  intro hmem
  unfold crawl_and_verify at hmem
  rcases List.mem_append.mp hmem with h1 | h2
  · obtain ⟨p, _, hp⟩ := List.mem_map.mp h1
    simp at hp
  · obtain ⟨ent, _, hent⟩ := List.mem_flatMap.mp h2
    exact missingLine_mem_reportForFile hent hinv

/-- Witness for c2_inventory_target_never_missing on a walk with one shader
including a header that the same walk inventories. -/
theorem c2_inventory_target_never_missing_witness :
    ReportLine.missingLine ("common.h".data) ∉
      crawl_and_verify ("r".data) ("/c".data)
        (fun p => if p = "r/a.glsl".data
          then some ("#include \"common.h\"".data) else some [])
        [("r".data, ["a.glsl".data, "common.h".data])] :=
  c2_inventory_target_never_missing ("r".data) ("/c".data) ("common.h".data)
    (fun p => if p = "r/a.glsl".data
      then some ("#include \"common.h\"".data) else some [])
    [("r".data, ["a.glsl".data, "common.h".data])] (by decide)

/-- C3: a target absent from the inventory is reported missing exactly once
per occurrence in the include sequence of its record: the count of its
missing lines in the report of that record equals the count of the target in
the record, duplicates preserved. -/
theorem c3_missing_once_per_occurrence (cwd fp t : List Char)
    (all_files : List (List Char)) (incs : List (List Char))
    (habs : t ∉ all_files) :
    (reportForFile cwd all_files (fp, incs)).count (ReportLine.missingLine t) =
      incs.count t := by
  unfold reportForFile
  rw [List.count_append]
  have hhead :
      (if incs.filter (fun x => decide (x ∉ all_files)) = [] then
        ([] : List ReportLine)
      else [ReportLine.headerLine fp]).count (ReportLine.missingLine t) = 0 := by
    split <;> simp [List.count_cons, List.count_nil]
  rw [hhead]
  have hbind : ∀ (ms : List (List Char)),
      (ms.flatMap (fun t0 =>
        ReportLine.missingLine t0 ::
          match find_similar_include t0 all_files with
          | some s =>
            [ReportLine.suggestLine
              (asPosix (relpath s (pyDirname fp) cwd))]
          | none => [ReportLine.noSuggestLine])).count
        (ReportLine.missingLine t) = ms.count t := by
    intro ms
    induction ms with
    | nil => simp
    | cons m0 ms0 ih =>
      rw [List.flatMap_cons, List.count_append, ih, List.count_cons,
        List.count_cons]
      have : (match find_similar_include m0 all_files with
          | some s =>
            [ReportLine.suggestLine (asPosix (relpath s (pyDirname fp) cwd))]
          | none => [ReportLine.noSuggestLine]).count
            (ReportLine.missingLine t) = 0 := by
        split <;> simp
      rw [this]
      by_cases hm : m0 = t
      · subst hm
        simp
        omega
      · simp [hm]
  rw [hbind]
  rw [List.count_filter (by simpa using habs)]
  simp

/-- Witness for c3_missing_once_per_occurrence with a duplicated missing
target. -/
theorem c3_missing_once_per_occurrence_witness :
    (reportForFile ("/c".data) ["a.h".data]
      ("f.glsl".data, ["x.h".data, "x.h".data])).count
        (ReportLine.missingLine ("x.h".data)) =
      (["x.h".data, "x.h".data]).count ("x.h".data) :=
  c3_missing_once_per_occurrence ("/c".data) ("f.glsl".data) ("x.h".data)
    ["a.h".data] ["x.h".data, "x.h".data] (by decide)

theorem splitSlash_ne_nil (l : List Char) : splitSlash l ≠ [] := by
  cases l with
  | nil => simp [splitSlash]
  | cons c cs =>
    simp only [splitSlash]
    split
    · simp
    · split <;> simp

theorem splitSlash_append (a b : List Char) :
    splitSlash (a ++ '/' :: b) = splitSlash a ++ splitSlash b := by
  induction a with
  | nil => simp [splitSlash]
  | cons c cs ih =>
    by_cases hc : c = '/'
    · subst hc
      simp [splitSlash, ih]
    · cases hcs : splitSlash cs with
      | nil => exact absurd hcs (splitSlash_ne_nil cs)
      | cons h t => simp [splitSlash, hc, ih, hcs]

/-- C7 counterexample: a file whose own name begins with a dot, inside a non
hidden directory, is inventoried; the skip of the source inspects only the
directory path, so the claim that no inventoried path contains a component
beginning with a dot is false. -/
theorem c7_hidden_file_inventoried :
    ".hidden".data ∈ (pass1 ("root".data) ("/c".data) (fun _ => none)
      [("root".data, [".hidden".data])]).all_files ∧
    (splitSlash (".hidden".data)).any startsWithDot = true :=
  ⟨by decide, by decide⟩

/-- C7 amended: the hidden exclusion applies to directory paths: a walk entry
whose directory path contains a component beginning with a dot contributes
nothing to the first pass state, inventory and include records alike; file
names are not inspected, as the counterexample shows. -/
theorem c7_dotted_directory_pruned (root cwd d : List Char)
    (read : List Char → Option (List Char))
    (W1 W2 : List (List Char × List (List Char)))
    (fs : List (List Char))
    (hd : (splitSlash d).any startsWithDot = true) :
    pass1 root cwd read (W1 ++ (d, fs) :: W2) =
      pass1 root cwd read (W1 ++ W2) := by
  unfold pass1
  rw [List.foldl_append, List.foldl_append, List.foldl_cons]
  have hstep :
      walkStep root cwd read
        (W1.foldl (walkStep root cwd read) ⟨[], [], []⟩) (d, fs) =
      W1.foldl (walkStep root cwd read) ⟨[], [], []⟩ := by
    simp [walkStep, hd]
  rw [hstep]

/-- Witness for c7_dotted_directory_pruned: a git metadata entry of the walk
is dropped from the scan. -/
theorem c7_dotted_directory_pruned_witness :
    pass1 ("r".data) ("/c".data) (fun _ => none)
      ([] ++ ("r/.git".data, ["config".data]) :: []) =
      pass1 ("r".data) ("/c".data) (fun _ => none) ([] ++ []) :=
  c7_dotted_directory_pruned ("r".data) ("/c".data) ("r/.git".data)
    (fun _ => none) [] [] (["config".data]) (by decide)

theorem scanFile_all_files (root cwd : List Char)
    (read : List Char → Option (List Char)) (dir : List Char)
    (st : CrawlState) (file : List Char) :
    (scanFile root cwd read dir st file).all_files =
      st.all_files ++ [resolveTo root cwd dir file] := by
  simp only [scanFile]
  split <;> rfl

theorem filesFold_all_files (root cwd : List Char)
    (read : List Char → Option (List Char)) (dir : List Char) :
    ∀ (files : List (List Char)) (st : CrawlState),
      (files.foldl (scanFile root cwd read dir) st).all_files =
        st.all_files ++ files.map (fun f => resolveTo root cwd dir f)
  | [], st => by simp
  | f :: files, st => by
    rw [List.foldl_cons, filesFold_all_files root cwd read dir files _,
      scanFile_all_files]
    simp

/-- Inventory produced by the first pass, in order: for every walk entry that
is not skipped, the resolved path of each of its files. -/
def inventoryOf (root cwd : List Char)
    (walk : List (List Char × List (List Char))) : List (List Char) :=
  walk.flatMap (fun e =>
    if (splitSlash e.1).any startsWithDot then []
    else e.2.map (fun f => resolveTo root cwd e.1 f))

theorem walkFold_all_files (root cwd : List Char)
    (read : List Char → Option (List Char)) :
    ∀ (walk : List (List Char × List (List Char))) (st : CrawlState),
      (walk.foldl (walkStep root cwd read) st).all_files =
        st.all_files ++ inventoryOf root cwd walk
  | [], st => by simp [inventoryOf]
  | e :: walk, st => by
    rw [List.foldl_cons, walkFold_all_files root cwd read walk _]
    have hinv : inventoryOf root cwd (e :: walk) =
        (if (splitSlash e.1).any startsWithDot then []
          else e.2.map (fun f => resolveTo root cwd e.1 f)) ++
          inventoryOf root cwd walk := by
      unfold inventoryOf
      rw [List.flatMap_cons]
    rw [hinv]
    by_cases h : (splitSlash e.1).any startsWithDot = true
    · rw [if_pos h]
      have hws : walkStep root cwd read st e = st := by simp [walkStep, h]
      rw [hws]
      simp
    · rw [if_neg h]
      have hws : walkStep root cwd read st e =
          e.2.foldl (scanFile root cwd read e.1) st := by simp [walkStep, h]
      rw [hws, filesFold_all_files]
      simp

theorem pass1_all_files (root cwd : List Char)
    (read : List Char → Option (List Char))
    (walk : List (List Char × List (List Char))) :
    (pass1 root cwd read walk).all_files = inventoryOf root cwd walk := by
  unfold pass1
  rw [walkFold_all_files]
  rfl

theorem pass1_inventory_mem (root cwd : List Char)
    (read : List Char → Option (List Char))
    (walk : List (List Char × List (List Char))) (d2 f2 : List Char)
    (fs2 : List (List Char)) (hw : (d2, fs2) ∈ walk)
    (hnd : (splitSlash d2).any startsWithDot = false) (hf : f2 ∈ fs2) :
    resolveTo root cwd d2 f2 ∈ (pass1 root cwd read walk).all_files := by
  rw [pass1_all_files]
  unfold inventoryOf
  refine List.mem_flatMap.mpr ⟨(d2, fs2), hw, ?_⟩
  rw [if_neg (by simp [hnd])]
  exact List.mem_map_of_mem _ hf

theorem scanFile_errors_mono {x : List Char} (root cwd : List Char)
    (read : List Char → Option (List Char)) (dir : List Char)
    (st : CrawlState) (file : List Char) (h : x ∈ st.errors) :
    x ∈ (scanFile root cwd read dir st file).errors := by
  simp only [scanFile]
  split
  · split <;> simp [h]
  · exact h

theorem filesFold_errors_mono (root cwd : List Char)
    (read : List Char → Option (List Char)) (dir : List Char) :
    ∀ (files : List (List Char)) (st : CrawlState) {x : List Char},
      x ∈ st.errors →
      x ∈ (files.foldl (scanFile root cwd read dir) st).errors
  | [], _, _, h => h
  | f :: files, st, x, h => by
    rw [List.foldl_cons]
    exact filesFold_errors_mono root cwd read dir files _
      (scanFile_errors_mono root cwd read dir st f h)

theorem walkFold_errors_mono (root cwd : List Char)
    (read : List Char → Option (List Char)) :
    ∀ (walk : List (List Char × List (List Char))) (st : CrawlState)
      {x : List Char}, x ∈ st.errors →
      x ∈ (walk.foldl (walkStep root cwd read) st).errors
  | [], _, _, h => h
  | e :: walk, st, x, h => by
    rw [List.foldl_cons]
    refine walkFold_errors_mono root cwd read walk _ ?_
    unfold walkStep
    split
    · exact h
    · exact filesFold_errors_mono root cwd read e.1 e.2 st h

theorem scanFile_error_new (root cwd : List Char)
    (read : List Char → Option (List Char)) (dir : List Char)
    (st : CrawlState) (file : List Char)
    (hext : pySplitextExt file ∈ sourceExts)
    (hread : read (pyJoin dir file) = none) :
    pyJoin dir file ∈ (scanFile root cwd read dir st file).errors := by
  simp only [scanFile]
  rw [if_pos hext]
  simp [hread]

theorem filesFold_error_new (root cwd : List Char)
    (read : List Char → Option (List Char)) (dir : List Char) :
    ∀ (files : List (List Char)) (st : CrawlState) {f : List Char},
      f ∈ files → pySplitextExt f ∈ sourceExts →
      read (pyJoin dir f) = none →
      pyJoin dir f ∈ (files.foldl (scanFile root cwd read dir) st).errors
  | [], _, f, h, _, _ => absurd h (List.not_mem_nil f)
  | f0 :: files, st, f, h, hext, hread => by
    rw [List.foldl_cons]
    rcases List.mem_cons.mp h with h1 | h2
    · subst h1
      exact filesFold_errors_mono root cwd read dir files _
        (scanFile_error_new root cwd read dir st f hext hread)
    · exact filesFold_error_new root cwd read dir files _ h2 hext hread

theorem pass1_error_mem (root cwd d f : List Char)
    (read : List Char → Option (List Char))
    (walk : List (List Char × List (List Char))) (fs : List (List Char))
    (hw : (d, fs) ∈ walk)
    (hnd : (splitSlash d).any startsWithDot = false) (hf : f ∈ fs)
    (hext : pySplitextExt f ∈ sourceExts)
    (hread : read (pyJoin d f) = none) :
    pyJoin d f ∈ (pass1 root cwd read walk).errors := by
  obtain ⟨W1, W2, rfl⟩ := List.append_of_mem hw
  unfold pass1
  rw [List.foldl_append, List.foldl_cons]
  refine walkFold_errors_mono root cwd read W2 _ ?_
  unfold walkStep
  rw [if_neg (by simp [hnd])]
  exact filesFold_error_new root cwd read d fs _ hf hext hread

theorem dictSet_mem_self (d : List (List Char × List (List Char)))
    (k : List Char) (v : List (List Char)) : (k, v) ∈ dictSet d k v := by
  induction d with
  | nil => simp [dictSet]
  | cons p rest ih =>
    obtain ⟨k0, v0⟩ := p
    simp only [dictSet]
    split
    · rename_i h
      simp [h]
    · simp [ih]

theorem dictSet_mem_other {d : List (List Char × List (List Char))}
    {kset k2 : List Char} {v v2 : List (List Char)} (hne : k2 ≠ kset) :
    (k2, v2) ∈ dictSet d kset v ↔ (k2, v2) ∈ d := by
  induction d with
  | nil => simp [dictSet, hne]
  | cons p rest ih =>
    obtain ⟨k0, v0⟩ := p
    simp only [dictSet]
    split
    · rename_i h
      subst h
      simp [List.mem_cons, hne]
    · simp [List.mem_cons, ih]

theorem dictSet_key_persists {d : List (List Char × List (List Char))}
    {k : List Char} (h : ∃ l, (k, l) ∈ d) (k2 : List Char)
    (v2 : List (List Char)) : ∃ l, (k, l) ∈ dictSet d k2 v2 := by
  induction d with
  | nil =>
    obtain ⟨l, hl⟩ := h
    simp at hl
  | cons p rest ih =>
    obtain ⟨k0, v0⟩ := p
    obtain ⟨l, hl⟩ := h
    simp only [dictSet]
    split
    · rename_i heq
      subst heq
      rcases List.mem_cons.mp hl with h1 | h2
      · have hk : k = k0 := by
          simpa using congrArg Prod.fst h1
        exact ⟨v2, by simp [hk]⟩
      · exact ⟨l, List.mem_cons_of_mem _ h2⟩
    · rcases List.mem_cons.mp hl with h1 | h2
      · exact ⟨l, by simp [h1]⟩
      · obtain ⟨l2, hl2⟩ := ih ⟨l, h2⟩
        exact ⟨l2, List.mem_cons_of_mem _ hl2⟩

theorem scanFile_includes_preserve {root cwd dir : List Char}
    {read : List Char → Option (List Char)} {st : CrawlState}
    {file k : List Char} {v : List (List Char)}
    (hne : resolveTo root cwd dir file ≠ k)
    (h : (k, v) ∈ st.all_includes) :
    (k, v) ∈ (scanFile root cwd read dir st file).all_includes := by
  simp only [scanFile]
  split
  · exact (dictSet_mem_other (Ne.symm hne)).mpr h
  · exact h

theorem scanFile_key_persists {root cwd dir : List Char}
    {read : List Char → Option (List Char)} {st : CrawlState}
    {file k : List Char} (h : ∃ l, (k, l) ∈ st.all_includes) :
    ∃ l, (k, l) ∈ (scanFile root cwd read dir st file).all_includes := by
  simp only [scanFile]
  split
  · exact dictSet_key_persists h _ _
  · exact h

theorem scanFile_includes_new (root cwd : List Char)
    (read : List Char → Option (List Char)) (dir : List Char)
    (st : CrawlState) (file : List Char)
    (hext : pySplitextExt file ∈ sourceExts) :
    (resolveTo root cwd dir file,
      (get_includes_from_shader (read (pyJoin dir file))).map
        (fun inc => resolveTo root cwd dir inc)) ∈
      (scanFile root cwd read dir st file).all_includes := by
  simp only [scanFile]
  rw [if_pos hext]
  exact dictSet_mem_self _ _ _

/-- Dict keys assigned by the first pass, in processing order: one per file
with recognized extension inside every walk entry that is not skipped. -/
def scannedKeys (root cwd : List Char)
    (walk : List (List Char × List (List Char))) : List (List Char) :=
  walk.flatMap (fun e =>
    if (splitSlash e.1).any startsWithDot then []
    else (e.2.filter (fun f => decide (pySplitextExt f ∈ sourceExts))).map
      (fun f => resolveTo root cwd e.1 f))

theorem filesFold_includes_preserve (root cwd dir : List Char)
    (read : List Char → Option (List Char)) :
    ∀ (files : List (List Char)) (st : CrawlState) {k : List Char}
      {v : List (List Char)},
      (k, v) ∈ st.all_includes →
      k ∉ (files.filter
          (fun f => decide (pySplitextExt f ∈ sourceExts))).map
        (fun f => resolveTo root cwd dir f) →
      (k, v) ∈ (files.foldl (scanFile root cwd read dir) st).all_includes
  | [], _, _, _, h, _ => h
  | f :: files, st, k, v, h, hk => by
    rw [List.foldl_cons]
    by_cases hs : pySplitextExt f ∈ sourceExts
    · have hfc : (f :: files).filter
          (fun f => decide (pySplitextExt f ∈ sourceExts)) =
          f :: files.filter (fun f => decide (pySplitextExt f ∈ sourceExts)) := by
        simp [List.filter_cons, hs]
      have hne : resolveTo root cwd dir f ≠ k := by
        intro he
        apply hk
        rw [hfc, List.map_cons, he]
        exact List.mem_cons_self _ _
      refine filesFold_includes_preserve root cwd dir read files _
        (scanFile_includes_preserve hne h) ?_
      intro hmem
      apply hk
      rw [hfc, List.map_cons]
      exact List.mem_cons_of_mem _ hmem
    · have hst : (scanFile root cwd read dir st f).all_includes =
          st.all_includes := by
        simp only [scanFile]
        rw [if_neg hs]
      refine filesFold_includes_preserve root cwd dir read files _
        (by rw [hst]; exact h) ?_
      intro hmem
      apply hk
      have hfc : (f :: files).filter
          (fun f => decide (pySplitextExt f ∈ sourceExts)) =
          files.filter (fun f => decide (pySplitextExt f ∈ sourceExts)) := by
        simp [List.filter_cons, hs]
      rw [hfc]
      exact hmem

theorem walkFold_includes_preserve (root cwd : List Char)
    (read : List Char → Option (List Char)) :
    ∀ (walk : List (List Char × List (List Char))) (st : CrawlState)
      {k : List Char} {v : List (List Char)},
      (k, v) ∈ st.all_includes → k ∉ scannedKeys root cwd walk →
      (k, v) ∈ (walk.foldl (walkStep root cwd read) st).all_includes
  | [], _, _, _, h, _ => h
  | e :: walk, st, k, v, h, hk => by
    rw [List.foldl_cons]
    have hsk : scannedKeys root cwd (e :: walk) =
        (if (splitSlash e.1).any startsWithDot then []
          else (e.2.filter
              (fun f => decide (pySplitextExt f ∈ sourceExts))).map
            (fun f => resolveTo root cwd e.1 f)) ++
          scannedKeys root cwd walk := by
      unfold scannedKeys
      rw [List.flatMap_cons]
    have hk2 : k ∉ scannedKeys root cwd walk := by
      intro hm
      apply hk
      rw [hsk]
      exact List.mem_append_right _ hm
    refine walkFold_includes_preserve root cwd read walk _ ?_ hk2
    unfold walkStep
    split
    · exact h
    · rename_i hskip
      refine filesFold_includes_preserve root cwd e.1 read e.2 st h ?_
      intro hm
      apply hk
      rw [hsk, if_neg hskip]
      exact List.mem_append_left _ hm

theorem filesFold_key_persists (root cwd dir : List Char)
    (read : List Char → Option (List Char)) :
    ∀ (files : List (List Char)) (st : CrawlState) {k : List Char},
      (∃ l, (k, l) ∈ st.all_includes) →
      ∃ l, (k, l) ∈ (files.foldl (scanFile root cwd read dir) st).all_includes
  | [], _, _, h => h
  | f :: files, st, k, h => by
    rw [List.foldl_cons]
    exact filesFold_key_persists root cwd dir read files _
      (scanFile_key_persists h)

theorem walkFold_key_persists (root cwd : List Char)
    (read : List Char → Option (List Char)) :
    ∀ (walk : List (List Char × List (List Char))) (st : CrawlState)
      {k : List Char},
      (∃ l, (k, l) ∈ st.all_includes) →
      ∃ l, (k, l) ∈ (walk.foldl (walkStep root cwd read) st).all_includes
  | [], _, _, h => h
  | e :: walk, st, k, h => by
    rw [List.foldl_cons]
    refine walkFold_key_persists root cwd read walk _ ?_
    unfold walkStep
    split
    · exact h
    · exact filesFold_key_persists root cwd e.1 read e.2 st h

theorem pass1_record_exists (root cwd : List Char)
    (read : List Char → Option (List Char))
    (walk : List (List Char × List (List Char))) (d2 f2 : List Char)
    (fs2 : List (List Char)) (hw : (d2, fs2) ∈ walk)
    (hnd : (splitSlash d2).any startsWithDot = false) (hf : f2 ∈ fs2)
    (hext : pySplitextExt f2 ∈ sourceExts) :
    ∃ l, (resolveTo root cwd d2 f2, l) ∈
      (pass1 root cwd read walk).all_includes := by
  obtain ⟨W1, W2, rfl⟩ := List.append_of_mem hw
  obtain ⟨F1, F2, rfl⟩ := List.append_of_mem hf
  unfold pass1
  rw [List.foldl_append, List.foldl_cons]
  refine walkFold_key_persists root cwd read W2 _ ?_
  unfold walkStep
  rw [if_neg (by simp [hnd])]
  rw [List.foldl_append, List.foldl_cons]
  refine filesFold_key_persists root cwd d2 read F2 _ ?_
  exact ⟨_, scanFile_includes_new root cwd read d2 _ f2 hext⟩

theorem pass1_failed_record (root cwd d f : List Char)
    (read : List Char → Option (List Char))
    (walk : List (List Char × List (List Char))) (fs : List (List Char))
    (hw : (d, fs) ∈ walk)
    (hnd : (splitSlash d).any startsWithDot = false) (hf : f ∈ fs)
    (hext : pySplitextExt f ∈ sourceExts)
    (hread : read (pyJoin d f) = none)
    (hkeys : (scannedKeys root cwd walk).Nodup) :
    (resolveTo root cwd d f, ([] : List (List Char))) ∈
      (pass1 root cwd read walk).all_includes := by
  obtain ⟨W1, W2, rfl⟩ := List.append_of_mem hw
  obtain ⟨F1, F2, rfl⟩ := List.append_of_mem hf
  have hsk : scannedKeys root cwd (W1 ++ (d, F1 ++ f :: F2) :: W2) =
      scannedKeys root cwd W1 ++
        (((F1.filter (fun g => decide (pySplitextExt g ∈ sourceExts))).map
            (fun g => resolveTo root cwd d g) ++
          resolveTo root cwd d f ::
            (F2.filter (fun g => decide (pySplitextExt g ∈ sourceExts))).map
              (fun g => resolveTo root cwd d g)) ++
          scannedKeys root cwd W2) := by
    unfold scannedKeys
    rw [List.flatMap_append, List.flatMap_cons]
    rw [if_neg (by simp [hnd])]
    rw [List.filter_append, List.map_append]
    simp [List.filter_cons, hext]
  rw [hsk] at hkeys
  have hnodup2 : (resolveTo root cwd d f ::
      ((F2.filter (fun g => decide (pySplitextExt g ∈ sourceExts))).map
          (fun g => resolveTo root cwd d g) ++
        scannedKeys root cwd W2)).Nodup := by
    have h2 : ((scannedKeys root cwd W1 ++
        (F1.filter (fun g => decide (pySplitextExt g ∈ sourceExts))).map
          (fun g => resolveTo root cwd d g)) ++
        (resolveTo root cwd d f ::
          ((F2.filter (fun g => decide (pySplitextExt g ∈ sourceExts))).map
              (fun g => resolveTo root cwd d g) ++
            scannedKeys root cwd W2))).Nodup := by
      simpa [List.append_assoc, List.cons_append] using hkeys
    exact h2.of_append_right
  have hnotmem := (List.nodup_cons.mp hnodup2).1
  have hf2 : resolveTo root cwd d f ∉
      (F2.filter (fun g => decide (pySplitextExt g ∈ sourceExts))).map
        (fun g => resolveTo root cwd d g) :=
    fun hm => hnotmem (List.mem_append_left _ hm)
  have hw2 : resolveTo root cwd d f ∉ scannedKeys root cwd W2 :=
    fun hm => hnotmem (List.mem_append_right _ hm)
  unfold pass1
  rw [List.foldl_append, List.foldl_cons]
  refine walkFold_includes_preserve root cwd read W2 _ ?_ hw2
  have hws : walkStep root cwd read
      (W1.foldl (walkStep root cwd read) ⟨[], [], []⟩) (d, F1 ++ f :: F2) =
      (F1 ++ f :: F2).foldl (scanFile root cwd read d)
        (W1.foldl (walkStep root cwd read) ⟨[], [], []⟩) := by
    simp [walkStep, hnd]
  rw [hws, List.foldl_append, List.foldl_cons]
  refine filesFold_includes_preserve root cwd d read F2 _ ?_ hf2
  have hnew := scanFile_includes_new root cwd read d
    (F1.foldl (scanFile root cwd read d)
      (W1.foldl (walkStep root cwd read) ⟨[], [], []⟩)) f hext
  rw [hread] at hnew
  simpa [get_includes_from_shader] using hnew

/-- C8: a file with a recognized extension whose read fails does not abort
the run: its full path is recorded among the printed errors, its include
record is the empty list (under pairwise distinct scanned keys, as on a real
file system), the inventory does not depend on the read outcomes at all, and
every file of every non skipped walk entry is still inventoried, with a
record present for every scanned one. -/
theorem c8_read_error_nonfatal (root cwd d f : List Char)
    (read : List Char → Option (List Char))
    (walk : List (List Char × List (List Char))) (fs : List (List Char))
    (hw : (d, fs) ∈ walk)
    (hnd : (splitSlash d).any startsWithDot = false) (hf : f ∈ fs)
    (hext : pySplitextExt f ∈ sourceExts)
    (hread : read (pyJoin d f) = none)
    (hkeys : (scannedKeys root cwd walk).Nodup) :
    pyJoin d f ∈ (pass1 root cwd read walk).errors ∧
    (resolveTo root cwd d f, ([] : List (List Char))) ∈
      (pass1 root cwd read walk).all_includes ∧
    (∀ read2, (pass1 root cwd read2 walk).all_files =
      (pass1 root cwd read walk).all_files) ∧
    (∀ d2 fs2 f2, (d2, fs2) ∈ walk →
      (splitSlash d2).any startsWithDot = false → f2 ∈ fs2 →
      resolveTo root cwd d2 f2 ∈ (pass1 root cwd read walk).all_files ∧
      (pySplitextExt f2 ∈ sourceExts →
        ∃ l, (resolveTo root cwd d2 f2, l) ∈
          (pass1 root cwd read walk).all_includes)) := by
  refine ⟨pass1_error_mem root cwd d f read walk fs hw hnd hf hext hread,
    pass1_failed_record root cwd d f read walk fs hw hnd hf hext hread hkeys,
    ?_, ?_⟩
  · intro read2
    rw [pass1_all_files, pass1_all_files]
  · intro d2 fs2 f2 hw2 hnd2 hf2
    exact ⟨pass1_inventory_mem root cwd read walk d2 f2 fs2 hw2 hnd2 hf2,
      fun hext2 =>
        pass1_record_exists root cwd read walk d2 f2 fs2 hw2 hnd2 hf2 hext2⟩

/-- Witness for c8_read_error_nonfatal: one shader whose read fails. -/
theorem c8_read_error_nonfatal_witness :
    pyJoin ("r".data) ("a.glsl".data) ∈
      (pass1 ("r".data) ("/c".data) (fun _ => none)
        [("r".data, ["a.glsl".data])]).errors ∧
    (resolveTo ("r".data) ("/c".data) ("r".data) ("a.glsl".data),
      ([] : List (List Char))) ∈
      (pass1 ("r".data) ("/c".data) (fun _ => none)
        [("r".data, ["a.glsl".data])]).all_includes ∧
    (∀ read2, (pass1 ("r".data) ("/c".data) read2
        [("r".data, ["a.glsl".data])]).all_files =
      (pass1 ("r".data) ("/c".data) (fun _ => none)
        [("r".data, ["a.glsl".data])]).all_files) ∧
    (∀ d2 fs2 f2, (d2, fs2) ∈ [(("r".data : List Char), ["a.glsl".data])] →
      (splitSlash d2).any startsWithDot = false → f2 ∈ fs2 →
      resolveTo ("r".data) ("/c".data) d2 f2 ∈
        (pass1 ("r".data) ("/c".data) (fun _ => none)
          [("r".data, ["a.glsl".data])]).all_files ∧
      (pySplitextExt f2 ∈ sourceExts →
        ∃ l, (resolveTo ("r".data) ("/c".data) d2 f2, l) ∈
          (pass1 ("r".data) ("/c".data) (fun _ => none)
            [("r".data, ["a.glsl".data])]).all_includes)) := by
  have h := c8_read_error_nonfatal ("r".data) ("/c".data) ("r".data)
    ("a.glsl".data) (fun _ => none) [("r".data, ["a.glsl".data])]
    ["a.glsl".data] (by decide) (by decide) (by decide) (by decide) rfl
    (by decide)
  exact h

theorem normStep_nil (flag : Bool) (st : List (List Char)) :
    normStep flag st [] = st := by simp [normStep]

theorem normStep_dot (flag : Bool) (st : List (List Char)) :
    normStep flag st ['.'] = st := by simp [normStep]

theorem normStep_name (flag : Bool) (st : List (List Char)) (y : List Char)
    (h1 : y ≠ []) (h2 : y ≠ ['.']) (h3 : y ≠ ['.', '.']) :
    normStep flag st y = st ++ [y] := by
  simp [normStep, h1, h2, h3]

theorem normStep_pop (flag : Bool) (X : List (List Char)) (d : List Char)
    (hd : d ≠ ['.', '.']) :
    normStep flag (X ++ [d]) ['.', '.'] = X := by
  have h1 : ¬ ((['.', '.'] : List Char) = [] ∨ (['.', '.'] : List Char) = ['.']) := by
    simp
  have h2 : ¬ ((flag = false ∧ X ++ [d] = []) ∨
      (X ++ [d] ≠ [] ∧ (X ++ [d]).getLast? = some ['.', '.'])) := by
    simp [List.getLast?_concat, hd]
  simp only [normStep, if_neg h1, if_pos rfl, if_neg h2]
  rw [if_pos (show X ++ [d] ≠ [] by simp), List.dropLast_concat]
  simp

theorem normStep_dotdot_append (flag : Bool) (st : List (List Char))
    (h : (flag = false ∧ st = []) ∨
      (st ≠ [] ∧ st.getLast? = some ['.', '.'])) :
    normStep flag st ['.', '.'] = st ++ [['.', '.']] := by
  have h1 : ¬ ((['.', '.'] : List Char) = [] ∨ (['.', '.'] : List Char) = ['.']) := by
    simp
  simp only [normStep, if_neg h1, if_pos rfl, if_pos h]
  simp

theorem normStep_dotdot_rest (flag : Bool) (st : List (List Char))
    (h : ¬ ((flag = false ∧ st = []) ∨
      (st ≠ [] ∧ st.getLast? = some ['.', '.']))) :
    normStep flag st ['.', '.'] = if st ≠ [] then st.dropLast else st := by
  have h1 : ¬ ((['.', '.'] : List Char) = [] ∨ (['.', '.'] : List Char) = ['.']) := by
    simp
  simp only [normStep, if_neg h1, if_pos rfl, if_neg h]
  simp

theorem normFold_entries (flag : Bool) :
    ∀ (ys st : List (List Char)),
      (∀ x ∈ st, x ≠ [] ∧ x ≠ ['.']) →
      ∀ x ∈ List.foldl (normStep flag) st ys, x ≠ [] ∧ x ≠ ['.']
  | [], st, hst => hst
  | y :: ys, st, hst => by
    rw [List.foldl_cons]
    refine normFold_entries flag ys _ ?_
    intro z hz
    by_cases h1 : y = []
    · rw [h1, normStep_nil] at hz
      exact hst z hz
    by_cases h2 : y = ['.']
    · rw [h2, normStep_dot] at hz
      exact hst z hz
    by_cases h3 : y = ['.', '.']
    · subst h3
      by_cases hc : (flag = false ∧ st = []) ∨
          (st ≠ [] ∧ st.getLast? = some ['.', '.'])
      · rw [normStep_dotdot_append flag st hc] at hz
        rcases List.mem_append.mp hz with ha | hb
        · exact hst z ha
        · have : z = ['.', '.'] := by simpa using hb
          subst this
          exact ⟨by simp, by simp⟩
      · rw [normStep_dotdot_rest flag st hc] at hz
        split at hz
        · exact hst z (List.dropLast_subset _ hz)
        · exact hst z hz
    · rw [normStep_name flag st y h1 h2 h3] at hz
      rcases List.mem_append.mp hz with ha | hb
      · exact hst z ha
      · have : z = y := by simpa using hb
        subst this
        exact ⟨h1, h2⟩

theorem normFold_noslash (flag : Bool) :
    ∀ (ys st : List (List Char)),
      (∀ x ∈ st, ¬ '/' ∈ x) → (∀ y ∈ ys, ¬ '/' ∈ y) →
      ∀ x ∈ List.foldl (normStep flag) st ys, ¬ '/' ∈ x
  | [], st, hst, _ => hst
  | y :: ys, st, hst, hys => by
    rw [List.foldl_cons]
    refine normFold_noslash flag ys _ ?_
      (fun z hz => hys z (List.mem_cons_of_mem _ hz))
    intro z hz
    by_cases h1 : y = []
    · rw [h1, normStep_nil] at hz
      exact hst z hz
    by_cases h2 : y = ['.']
    · rw [h2, normStep_dot] at hz
      exact hst z hz
    by_cases h3 : y = ['.', '.']
    · subst h3
      by_cases hc : (flag = false ∧ st = []) ∨
          (st ≠ [] ∧ st.getLast? = some ['.', '.'])
      · rw [normStep_dotdot_append flag st hc] at hz
        rcases List.mem_append.mp hz with ha | hb
        · exact hst z ha
        · have : z = ['.', '.'] := by simpa using hb
          subst this
          simp
      · rw [normStep_dotdot_rest flag st hc] at hz
        split at hz
        · exact hst z (List.dropLast_subset _ hz)
        · exact hst z hz
    · rw [normStep_name flag st y h1 h2 h3] at hz
      rcases List.mem_append.mp hz with ha | hb
      · exact hst z ha
      · have : z = y := by simpa using hb
        subst this
        exact hys z (by simp)

theorem normFold_no_dotdot :
    ∀ (ys st : List (List Char)), (∀ x ∈ st, x ≠ ['.', '.']) →
      ∀ x ∈ List.foldl (normStep true) st ys, x ≠ ['.', '.']
  | [], st, hst => hst
  | y :: ys, st, hst => by
    rw [List.foldl_cons]
    refine normFold_no_dotdot ys _ ?_
    intro z hz
    by_cases h1 : y = []
    · rw [h1, normStep_nil] at hz
      exact hst z hz
    by_cases h2 : y = ['.']
    · rw [h2, normStep_dot] at hz
      exact hst z hz
    by_cases h3 : y = ['.', '.']
    · subst h3
      have hc : ¬ ((true = false ∧ st = []) ∨
          (st ≠ [] ∧ st.getLast? = some ['.', '.'])) := by
        rintro (⟨h4, _⟩ | ⟨h5, h6⟩)
        · exact absurd h4 (by simp)
        · have hg := List.getLast?_eq_getLast_of_ne_nil h5
          have h7 : st.getLast h5 = ['.', '.'] := by
            have h8 := hg.symm.trans h6
            simpa using h8
          exact hst _ (h7 ▸ List.getLast_mem h5) rfl
      rw [normStep_dotdot_rest true st hc] at hz
      split at hz
      · exact hst z (List.dropLast_subset _ hz)
      · exact hst z hz
    · rw [normStep_name true st y h1 h2 h3] at hz
      rcases List.mem_append.mp hz with ha | hb
      · exact hst z ha
      · have : z = y := by simpa using hb
        subst this
        exact h3

theorem normFold_names (flag : Bool) :
    ∀ (ys st : List (List Char)),
      (∀ y ∈ ys, y ≠ [] ∧ y ≠ ['.'] ∧ y ≠ ['.', '.']) →
      List.foldl (normStep flag) st ys = st ++ ys
  | [], st, _ => by simp
  | y :: ys, st, h => by
    have hy := h y (by simp)
    rw [List.foldl_cons, normStep_name flag st y hy.1 hy.2.1 hy.2.2,
      normFold_names flag ys _ (fun z hz => h z (by simp [hz]))]
    simp

theorem normFold_comp (flag : Bool) (ys : List (List Char)) :
    ∀ st, List.foldl (normStep flag) st (List.foldl (normStep false) [] ys) =
      List.foldl (normStep flag) st ys := by
  induction ys using List.reverseRecOn with
  | nil => intro st; rfl
  | append_singleton ys y ih =>
    intro st
    have hinner : List.foldl (normStep false) [] (ys ++ [y]) =
        normStep false (List.foldl (normStep false) [] ys) y := by
      rw [List.foldl_append, List.foldl_cons, List.foldl_nil]
    rw [hinner, List.foldl_append, List.foldl_cons, List.foldl_nil, ← ih st]
    by_cases h1 : y = []
    · rw [h1, normStep_nil, normStep_nil]
    by_cases h2 : y = ['.']
    · rw [h2, normStep_dot, normStep_dot]
    by_cases h3 : y = ['.', '.']
    · subst h3
      by_cases hc : ((false : Bool) = false ∧
          List.foldl (normStep false) [] ys = []) ∨
          (List.foldl (normStep false) [] ys ≠ [] ∧
            (List.foldl (normStep false) [] ys).getLast? = some ['.', '.'])
      · rw [normStep_dotdot_append false _ hc, List.foldl_append,
          List.foldl_cons, List.foldl_nil]
      · have hne : List.foldl (normStep false) [] ys ≠ [] := by
          intro h4
          exact hc (Or.inl ⟨rfl, h4⟩)
        have hlast : (List.foldl (normStep false) [] ys).getLast? ≠
            some ['.', '.'] := by
          intro h5
          exact hc (Or.inr ⟨hne, h5⟩)
        rw [normStep_dotdot_rest false _ hc, if_pos hne]
        have hdec := List.dropLast_append_getLast hne
        have hdprop := normFold_entries false ys [] (by simp) _
          (List.getLast_mem hne)
        have hdne : (List.foldl (normStep false) [] ys).getLast hne ≠
            ['.', '.'] := by
          intro h6
          apply hlast
          rw [List.getLast?_eq_getLast_of_ne_nil hne, h6]
        conv_rhs =>
          rw [← hdec]
        rw [List.foldl_append, List.foldl_cons, List.foldl_nil,
          normStep_name flag _ _ hdprop.1 hdprop.2 hdne, normStep_pop flag _ _
            hdne]
    · rw [normStep_name false _ y h1 h2 h3, List.foldl_append,
        List.foldl_cons, List.foldl_nil]

theorem splitSlash_noslash (p : List Char) :
    ∀ part ∈ splitSlash p, ¬ '/' ∈ part := by
  induction p with
  | nil =>
    intro part hp
    simp [splitSlash] at hp
    simp [hp]
  | cons c cs ih =>
    intro part hp
    by_cases hc : c = '/'
    · subst hc
      simp only [splitSlash, if_pos rfl] at hp
      rcases List.mem_cons.mp hp with h1 | h2
      · simp [h1]
      · exact ih part h2
    · simp only [splitSlash, if_neg hc] at hp
      cases hcs : splitSlash cs with
      | nil => exact absurd hcs (splitSlash_ne_nil cs)
      | cons h t =>
        rw [hcs] at hp
        rcases List.mem_cons.mp hp with h1 | h2
        · subst h1
          intro hmem
          rcases List.mem_cons.mp hmem with h3 | h4
          · exact hc h3.symm
          · exact ih h (by simp [hcs]) h4
        · exact ih part (by simp [hcs, h2])

theorem splitSlash_single (x : List Char) (hx : ¬ '/' ∈ x) :
    splitSlash x = [x] := by
  induction x with
  | nil => simp [splitSlash]
  | cons c cs ih =>
    have hc : c ≠ '/' := fun h => hx (by simp [h])
    have hcs : splitSlash cs = [cs] := ih (fun h => hx (by simp [h]))
    simp [splitSlash, hc, hcs]

theorem splitSlash_cons_slash (x : List Char) :
    splitSlash ('/' :: x) = [] :: splitSlash x := by
  simp [splitSlash]

theorem splitSlash_intercalate (comps : List (List Char))
    (h : ∀ x ∈ comps, x ≠ [] ∧ ¬ '/' ∈ x) (hne : comps ≠ []) :
    splitSlash (intercalateSlash comps) = comps := by
  induction comps with
  | nil => exact absurd rfl hne
  | cons x comps ih =>
    cases comps with
    | nil =>
      have := splitSlash_single x (h x (by simp)).2
      simpa [intercalateSlash] using this
    | cons y rest =>
      have hint : intercalateSlash (x :: y :: rest) =
          x ++ '/' :: intercalateSlash (y :: rest) := rfl
      rw [hint, splitSlash_append, splitSlash_single x (h x (by simp)).2,
        ih (fun z hz => h z (by simp [hz])) (by simp)]
      rfl

theorem startsWithSlash_ne_nil {a : List Char}
    (h : startsWithSlash a = true) : a ≠ [] := by
  cases a with
  | nil => simp [startsWithSlash] at h
  | cons c cs => simp

theorem startsWithSlash_pyJoin (a b : List Char)
    (ha : startsWithSlash a = true) :
    startsWithSlash (pyJoin a b) = true := by
  unfold pyJoin
  split
  · assumption
  · split
    · cases a with
      | nil => simp [startsWithSlash] at ha
      | cons c cs =>
        simp [startsWithSlash] at ha ⊢
        exact ha
    · cases a with
      | nil => simp [startsWithSlash] at ha
      | cons c cs =>
        simp [startsWithSlash] at ha ⊢
        exact ha

theorem pyJoin_ne_nil (a b : List Char) (hb : b ≠ []) : pyJoin a b ≠ [] := by
  unfold pyJoin
  split
  · exact hb
  · split
    · simp [hb]
    · simp

theorem normFold_mid_nil (flag : Bool) (st : List (List Char))
    (X Y : List (List Char)) :
    List.foldl (normStep flag) st (X ++ [] :: Y) =
      List.foldl (normStep flag) st (X ++ Y) := by
  rw [List.foldl_append, List.foldl_append, List.foldl_cons, normStep_nil]

theorem normFold_pyJoin (flag : Bool) (a b : List Char) (ha : a ≠ [])
    (hb : startsWithSlash b = false) (st : List (List Char)) :
    List.foldl (normStep flag) st (splitSlash (pyJoin a b)) =
      List.foldl (normStep flag) st (splitSlash a ++ splitSlash b) := by
  unfold pyJoin
  rw [if_neg (by simp [hb])]
  split
  · rename_i h2
    rcases h2 with h3 | h4
    · exact absurd h3 ha
    · have hdec := List.dropLast_append_getLast ha
      have hlast : a.getLast ha = '/' := by
        have h5 := List.getLast?_eq_getLast_of_ne_nil ha
        have h6 := h4.symm.trans h5
        have h7 : '/' = a.getLast ha := by simpa using h6
        exact h7.symm
      have ha2 : a = a.dropLast ++ '/' :: [] := by
        conv_lhs => rw [← hdec]
        rw [hlast]
      rw [ha2]
      have e1 : (a.dropLast ++ '/' :: []) ++ b = a.dropLast ++ '/' :: b := by
        simp
      rw [e1, splitSlash_append, splitSlash_append]
      have e2 : splitSlash ([] : List Char) = [[]] := rfl
      rw [e2]
      have e3 : (splitSlash a.dropLast ++ [[]]) ++ splitSlash b =
          splitSlash a.dropLast ++ [] :: splitSlash b := by simp
      rw [e3, normFold_mid_nil]
  · rw [splitSlash_append]

/-- Component list of the absolute form of a path: the normalization loop,
with the absolute flag, over the split of the path joined to the working
directory. -/
def absComps (cwd q : List Char) : List (List Char) :=
  List.foldl (normStep true) [] (splitSlash (pyJoin cwd q))

theorem initSlashes_cases {p : List Char} (h : startsWithSlash p = true) :
    initSlashes p = 1 ∨ initSlashes p = 2 := by
  have h2 : p.head? = some '/' := by simpa [startsWithSlash] using h
  unfold initSlashes
  split
  · exact Or.inr rfl
  · simp [h2]

theorem normpath_abs (J : List Char) (hJ : startsWithSlash J = true) :
    normpath J = List.replicate (initSlashes J) '/' ++
      intercalateSlash (List.foldl (normStep true) [] (splitSlash J)) := by
  have hne : J ≠ [] := startsWithSlash_ne_nil hJ
  have hout : List.replicate (initSlashes J) '/' ++
      intercalateSlash (List.foldl (normStep true) [] (splitSlash J)) ≠ [] := by
    rcases initSlashes_cases hJ with h1 | h1 <;> simp [h1]
  simp only [normpath, if_neg hne, hJ, if_neg hout]

theorem nonemptyParts_slashes (k : Nat) (hk : k = 1 ∨ k = 2)
    (comps : List (List Char)) (hent : ∀ x ∈ comps, x ≠ [] ∧ ¬ '/' ∈ x) :
    nonemptyParts (List.replicate k '/' ++ intercalateSlash comps) = comps := by
  have hfilter : (splitSlash (intercalateSlash comps)).filter
      (fun x => decide (x ≠ [])) = comps := by
    by_cases hc : comps = []
    · rw [hc]
      rfl
    · rw [splitSlash_intercalate comps hent hc]
      apply List.filter_eq_self.mpr
      intro x hx
      simpa using (hent x hx).1
  unfold nonemptyParts
  rcases hk with rfl | rfl
  · have e1 : List.replicate 1 '/' ++ intercalateSlash comps =
        '/' :: intercalateSlash comps := by simp
    rw [e1, splitSlash_cons_slash, List.filter_cons]
    simpa using hfilter
  · have e1 : List.replicate 2 '/' ++ intercalateSlash comps =
        '/' :: '/' :: intercalateSlash comps := by
      simp [List.replicate]
    rw [e1, splitSlash_cons_slash, splitSlash_cons_slash, List.filter_cons,
      List.filter_cons]
    simpa using hfilter

theorem nonemptyParts_abspath (cwd q : List Char)
    (hcwd : startsWithSlash cwd = true) :
    nonemptyParts (abspath cwd q) = absComps cwd q := by
  have hJ : startsWithSlash (pyJoin cwd q) = true :=
    startsWithSlash_pyJoin cwd q hcwd
  unfold abspath
  rw [normpath_abs _ hJ]
  exact nonemptyParts_slashes (initSlashes (pyJoin cwd q))
    (initSlashes_cases hJ) _
    (fun x hx => ⟨(normFold_entries true _ [] (by simp) x hx).1,
      normFold_noslash true _ [] (by simp) (splitSlash_noslash _) x hx⟩)

theorem pyJoin_of_abs (a b : List Char) (hb : startsWithSlash b = true) :
    pyJoin a b = b := by
  unfold pyJoin
  rw [if_pos hb]

theorem startsWithSlash_pyJoin_rel (a b : List Char) (ha : a ≠ [])
    (hha : startsWithSlash a = false) (hb : startsWithSlash b = false) :
    startsWithSlash (pyJoin a b) = false := by
  unfold pyJoin
  rw [if_neg (by simp [hb])]
  cases a with
  | nil => exact absurd rfl ha
  | cons c cs =>
    have hc : ¬ c = '/' := by
      simpa [startsWithSlash] using hha
    split
    · simp [startsWithSlash, hc]
    · simp [startsWithSlash, hc]

theorem absComps_pyJoin (cwd a b : List Char)
    (hcwd : startsWithSlash cwd = true) (ha : a ≠ [])
    (hb : startsWithSlash b = false) :
    absComps cwd (pyJoin a b) =
      List.foldl (normStep true) (absComps cwd a) (splitSlash b) := by
  by_cases habs : startsWithSlash a = true
  · have h1 : pyJoin cwd (pyJoin a b) = pyJoin a b :=
      pyJoin_of_abs cwd (pyJoin a b) (startsWithSlash_pyJoin a b habs)
    have h2 : pyJoin cwd a = a := pyJoin_of_abs cwd a habs
    unfold absComps
    rw [h1, h2, normFold_pyJoin true a b ha hb, List.foldl_append]
  · have hrel : startsWithSlash (pyJoin a b) = false :=
      startsWithSlash_pyJoin_rel a b ha (by simpa using habs) hb
    have hcne : cwd ≠ [] := startsWithSlash_ne_nil hcwd
    unfold absComps
    rw [normFold_pyJoin true cwd (pyJoin a b) hcne hrel,
      List.foldl_append,
      normFold_pyJoin true a b ha hb,
      List.foldl_append,
      normFold_pyJoin true cwd a hcne (by simpa using habs),
      List.foldl_append]

theorem initSlashes_rel {p : List Char} (h : startsWithSlash p = false) :
    initSlashes p = 0 := by
  have h2 : ¬ p.head? = some '/' := by
    simpa [startsWithSlash] using h
  unfold initSlashes
  rw [if_neg ?_, if_neg h2]
  rintro ⟨h3, _⟩
  cases p with
  | nil => simp at h3
  | cons c cs =>
    apply h2
    have : c = '/' := by
      simpa using congrArg (fun l => l.head?) h3
    simp [this]

theorem intercalate_ne_nil (x : List Char) (rest : List (List Char))
    (hx : x ≠ []) : intercalateSlash (x :: rest) ≠ [] := by
  cases rest with
  | nil => simpa [intercalateSlash] using hx
  | cons y t =>
    have : intercalateSlash (x :: y :: t) = x ++ '/' :: intercalateSlash (y :: t) := rfl
    rw [this]
    simp

theorem startsWithSlash_intercalate (comps : List (List Char))
    (h : ∀ x ∈ comps, x ≠ [] ∧ ¬ '/' ∈ x) :
    startsWithSlash (intercalateSlash comps) = false := by
  cases comps with
  | nil => rfl
  | cons x rest =>
    have hx := h x (by simp)
    cases x with
    | nil => exact absurd rfl hx.1
    | cons c cs =>
      have hc : c ≠ '/' := fun hcc => hx.2 (by simp [hcc])
      cases rest with
      | nil => simp [intercalateSlash, startsWithSlash, hc]
      | cons y t =>
        have he : intercalateSlash ((c :: cs) :: y :: t) =
            (c :: cs) ++ '/' :: intercalateSlash (y :: t) := rfl
        rw [he]
        simp [startsWithSlash, hc]

theorem absComps_normpath (cwd X : List Char)
    (hcwd : startsWithSlash cwd = true) (hX : X ≠ []) :
    absComps cwd (normpath X) = absComps cwd X := by
  have hcne : cwd ≠ [] := startsWithSlash_ne_nil hcwd
  by_cases habs : startsWithSlash X = true
  · rw [normpath_abs X habs]
    have hent := fun x hx =>
      normFold_entries true (splitSlash X) [] (by simp) x hx
    have hns := fun x hx =>
      normFold_noslash true (splitSlash X) [] (by simp)
        (splitSlash_noslash X) x hx
    have hnd := fun x hx =>
      normFold_no_dotdot (splitSlash X) [] (by simp) x hx
    have hNabs : startsWithSlash (List.replicate (initSlashes X) '/' ++
        intercalateSlash (List.foldl (normStep true) [] (splitSlash X))) =
        true := by
      rcases initSlashes_cases habs with h1 | h1 <;>
        simp [h1, startsWithSlash]
    unfold absComps
    rw [pyJoin_of_abs cwd _ hNabs, pyJoin_of_abs cwd X habs]
    have hgoal : ∀ k, k = 1 ∨ k = 2 →
        List.foldl (normStep true) []
          (splitSlash (List.replicate k '/' ++
            intercalateSlash (List.foldl (normStep true) [] (splitSlash X)))) =
        List.foldl (normStep true) [] (splitSlash X) := by
      intro k hk
      have hbody : List.foldl (normStep true) []
          ([] :: splitSlash
            (intercalateSlash (List.foldl (normStep true) [] (splitSlash X)))) =
          List.foldl (normStep true) [] (splitSlash X) := by
        rw [List.foldl_cons, normStep_nil]
        by_cases hc : List.foldl (normStep true) [] (splitSlash X) = []
        · rw [hc]
          simp [intercalateSlash, splitSlash, normStep_nil]
        · rw [splitSlash_intercalate _
            (fun x hx => ⟨(hent x hx).1, hns x hx⟩) hc]
          exact (normFold_names true _ []
            (fun y hy => ⟨(hent y hy).1, (hent y hy).2, hnd y hy⟩)).trans
            (by simp)
      rcases hk with rfl | rfl
      · have e1 : List.replicate 1 '/' ++
            intercalateSlash (List.foldl (normStep true) [] (splitSlash X)) =
            '/' :: intercalateSlash
              (List.foldl (normStep true) [] (splitSlash X)) := by simp
        rw [e1, splitSlash_cons_slash]
        exact hbody
      · have e1 : List.replicate 2 '/' ++
            intercalateSlash (List.foldl (normStep true) [] (splitSlash X)) =
            '/' :: '/' :: intercalateSlash
              (List.foldl (normStep true) [] (splitSlash X)) := by
          simp [List.replicate]
        rw [e1, splitSlash_cons_slash, splitSlash_cons_slash,
          List.foldl_cons, normStep_nil]
        exact hbody
    exact hgoal (initSlashes X) (initSlashes_cases habs)
  · have hXrel : startsWithSlash X = false := by simpa using habs
    have hent := fun x hx =>
      normFold_entries false (splitSlash X) [] (by simp) x hx
    have hns := fun x hx =>
      normFold_noslash false (splitSlash X) [] (by simp)
        (splitSlash_noslash X) x hx
    have hflag : normpath X =
        (if List.replicate (initSlashes X) '/' ++
            intercalateSlash (List.foldl (normStep false) [] (splitSlash X)) =
            [] then ['.']
          else List.replicate (initSlashes X) '/' ++
            intercalateSlash
              (List.foldl (normStep false) [] (splitSlash X))) := by
      simp only [normpath, if_neg hX, hXrel]
    rw [initSlashes_rel hXrel] at hflag
    simp only [List.replicate, List.nil_append] at hflag
    by_cases hc : List.foldl (normStep false) [] (splitSlash X) = []
    · rw [hc] at hflag
      have hdot : normpath X = ['.'] := by
        simpa [intercalateSlash] using hflag
      rw [hdot]
      unfold absComps
      rw [normFold_pyJoin true cwd ['.'] hcne (by simp [startsWithSlash]),
        List.foldl_append,
        normFold_pyJoin true cwd X hcne hXrel,
        List.foldl_append,
        ← normFold_comp true (splitSlash X), hc]
      have : splitSlash ['.'] = [['.']] :=
        splitSlash_single ['.'] (by simp)
      rw [this, List.foldl_cons, normStep_dot, List.foldl_nil]
    · cases hcval : List.foldl (normStep false) [] (splitSlash X) with
      | nil => exact absurd hcval hc
      | cons x rest =>
        have hx0 := hent x (by rw [hcval]; simp)
        have hNne : intercalateSlash
            (List.foldl (normStep false) [] (splitSlash X)) ≠ [] := by
          rw [hcval]
          exact intercalate_ne_nil x rest hx0.1
        rw [if_neg hNne] at hflag
        have hNrel : startsWithSlash (intercalateSlash
            (List.foldl (normStep false) [] (splitSlash X))) = false :=
          startsWithSlash_intercalate _
            (fun z hz => ⟨(hent z hz).1, hns z hz⟩)
        rw [hflag]
        unfold absComps
        rw [normFold_pyJoin true cwd _ hcne hNrel,
          List.foldl_append,
          normFold_pyJoin true cwd X hcne hXrel,
          List.foldl_append,
          splitSlash_intercalate _
            (fun z hz => ⟨(hent z hz).1, hns z hz⟩) hc,
          normFold_comp true (splitSlash X)]

/-- Directory paths yielded by os.walk below a root: the root string itself,
and the join of a yielded directory with one well formed child name
(nonempty, slash free, neither the self nor the parent link), exactly how
os.walk builds the directory strings it yields. -/
inductive WalkDir (root : List Char) : List Char → Prop where
  | top : WalkDir root root
  | sub {d n : List Char} : WalkDir root d → n ≠ [] → ¬ '/' ∈ n →
      n ≠ ['.'] → n ≠ ['.', '.'] → WalkDir root (pyJoin d n)

theorem walkDir_ne_nil {root d : List Char} (hroot : root ≠ [])
    (h : WalkDir root d) : d ≠ [] := by
  induction h with
  | top => exact hroot
  | sub h1 h2 h3 h4 h5 ih => exact pyJoin_ne_nil _ _ h2

theorem name_not_abs {n : List Char} (h3 : ¬ '/' ∈ n) :
    startsWithSlash n = false := by
  cases n with
  | nil => rfl
  | cons c cs =>
    have hc : c ≠ '/' := fun hcc => h3 (by simp [hcc])
    simp [startsWithSlash, hc]

theorem walkDir_absComps {root d : List Char} (cwd : List Char)
    (hcwd : startsWithSlash cwd = true) (hroot : root ≠ [])
    (h : WalkDir root d) :
    ∃ T, (∀ x ∈ T, x ≠ [] ∧ ¬ '/' ∈ x ∧ x ≠ ['.'] ∧ x ≠ ['.', '.']) ∧
      absComps cwd d = absComps cwd root ++ T := by
  induction h with
  | top => exact ⟨[], by simp, by simp⟩
  | @sub d2 n h1 h2 h3 h4 h5 ih =>
    obtain ⟨T, hT, heq⟩ := ih
    refine ⟨T ++ [n], ?_, ?_⟩
    · intro x hx
      rcases List.mem_append.mp hx with ha | hb
      · exact hT x ha
      · have : x = n := by simpa using hb
        subst this
        exact ⟨h2, h3, h4, h5⟩
    · rw [absComps_pyJoin cwd d2 n hcwd (walkDir_ne_nil hroot h1)
          (name_not_abs h3),
        splitSlash_single n h3, List.foldl_cons, List.foldl_nil,
        normStep_name true _ n h2 h4 h5, heq]
      simp

theorem commonLen_self_append (S U : List (List Char)) :
    commonLen S (S ++ U) = S.length := by
  induction S with
  | nil =>
    cases U with
    | nil => rfl
    | cons u us => rfl
  | cons x xs ih => simp [commonLen, ih]

theorem resolveTo_parts (root cwd d f : List Char)
    (hcwd : startsWithSlash cwd = true) (hroot : root ≠ [])
    (hd : WalkDir root d) (hf1 : f ≠ []) (hf2 : ¬ '/' ∈ f)
    (hf3 : f ≠ ['.']) (hf4 : f ≠ ['.', '.']) :
    ∃ T, (∀ x ∈ T, x ≠ [] ∧ ¬ '/' ∈ x ∧ x ≠ ['.'] ∧ x ≠ ['.', '.']) ∧
      T ≠ [] ∧ resolveTo root cwd d f = intercalateSlash T := by
  obtain ⟨T, hT, heq⟩ := walkDir_absComps cwd hcwd hroot hd
  have hP : absComps cwd (normpath (pyJoin d f)) =
      absComps cwd root ++ (T ++ [f]) := by
    rw [absComps_normpath cwd _ hcwd (pyJoin_ne_nil d f hf1),
      absComps_pyJoin cwd d f hcwd (walkDir_ne_nil hroot hd)
        (name_not_abs hf2),
      splitSlash_single f hf2, List.foldl_cons, List.foldl_nil,
      normStep_name true _ f hf1 hf3 hf4, heq]
    simp
  refine ⟨T ++ [f], ?_, by simp, ?_⟩
  · intro x hx
    rcases List.mem_append.mp hx with ha | hb
    · exact hT x ha
    · have : x = f := by simpa using hb
      subst this
      exact ⟨hf1, hf2, hf3, hf4⟩
  · unfold resolveTo
    simp only [relpath]
    rw [nonemptyParts_abspath cwd root hcwd,
      nonemptyParts_abspath cwd _ hcwd, hP, commonLen_self_append,
      Nat.sub_self, List.replicate_zero, List.nil_append, List.drop_left]
    rw [if_neg (by simp)]

/-- C9: every path stored in the inventory by the first pass is relative to
the root and never escapes it upward: its slash components contain no parent
link, and it does not begin with a slash.  The hypotheses state that the
working directory is absolute, the root is a nonempty string (the entry
point of the source rejects a missing path before crawling), the walked
directories are built by os.walk below the root, and the file names are well
formed names. -/
theorem c9_inventory_root_relative (root cwd fp : List Char)
    (read : List Char → Option (List Char))
    (walk : List (List Char × List (List Char)))
    (hcwd : startsWithSlash cwd = true) (hroot : root ≠ [])
    (hwalk : ∀ e ∈ walk, WalkDir root e.1)
    (hfiles : ∀ e ∈ walk, ∀ f ∈ e.2,
      f ≠ [] ∧ ¬ '/' ∈ f ∧ f ≠ ['.'] ∧ f ≠ ['.', '.'])
    (hfp : fp ∈ (pass1 root cwd read walk).all_files) :
    ['.', '.'] ∉ splitSlash fp ∧ fp.head? ≠ some '/' := by
  rw [pass1_all_files] at hfp
  unfold inventoryOf at hfp
  obtain ⟨e, he, hmem⟩ := List.mem_flatMap.mp hfp
  by_cases hskip : (splitSlash e.1).any startsWithDot = true
  · rw [if_pos hskip] at hmem
    simp at hmem
  · rw [if_neg hskip] at hmem
    obtain ⟨f, hf, rfl⟩ := List.mem_map.mp hmem
    have hfprops := hfiles e he f hf
    obtain ⟨T, hT, hTne, heq⟩ := resolveTo_parts root cwd e.1 f hcwd hroot
      (hwalk e he) hfprops.1 hfprops.2.1 hfprops.2.2.1 hfprops.2.2.2
    rw [heq]
    constructor
    · rw [splitSlash_intercalate T
        (fun x hx => ⟨(hT x hx).1, (hT x hx).2.1⟩) hTne]
      intro hmm
      exact (hT _ hmm).2.2.2 rfl
    · have hsl := startsWithSlash_intercalate T
        (fun x hx => ⟨(hT x hx).1, (hT x hx).2.1⟩)
      have h2 : ¬ (intercalateSlash T).head? = some '/' := by
        simpa [startsWithSlash] using hsl
      exact h2

/-- Witness for c9_inventory_root_relative on a one file walk. -/
theorem c9_inventory_root_relative_witness :
    ['.', '.'] ∉ splitSlash ("a.glsl".data) ∧
    ("a.glsl".data).head? ≠ some '/' := by
  refine c9_inventory_root_relative ("r".data) ("/c".data) ("a.glsl".data)
    (fun _ => none) [("r".data, ["a.glsl".data])] (by decide) (by decide)
    ?_ (by decide) (by decide)
  intro e he
  rw [List.mem_singleton] at he
  subst he
  exact WalkDir.top

theorem walkDir_dotted {root d : List Char}
    (hroot : (splitSlash root).any startsWithDot = true)
    (h : WalkDir root d) :
    (splitSlash d).any startsWithDot = true := by
  induction h with
  | top => exact hroot
  | @sub d2 n h1 h2 h3 h4 h5 ih =>
    unfold pyJoin
    rw [if_neg (by simp [name_not_abs h3])]
    split
    · rename_i hc
      rcases hc with hnil | hslash
      · rw [hnil] at ih
        simp [splitSlash, startsWithDot] at ih
      · have hd2ne : d2 ≠ [] := by
          intro h0
          rw [h0] at hslash
          simp at hslash
        have hdec := List.dropLast_append_getLast hd2ne
        have hlast : d2.getLast hd2ne = '/' := by
          have h5b := List.getLast?_eq_getLast_of_ne_nil hd2ne
          have h6 := hslash.symm.trans h5b
          have h7 : '/' = d2.getLast hd2ne := by simpa using h6
          exact h7.symm
        have hd2eq : d2 = d2.dropLast ++ '/' :: [] := by
          conv_lhs => rw [← hdec]
          rw [hlast]
        rw [hd2eq] at ih ⊢
        have e1 : (d2.dropLast ++ '/' :: []) ++ n = d2.dropLast ++ '/' :: n := by
          simp
        rw [e1, splitSlash_append, List.any_append]
        rw [splitSlash_append, List.any_append] at ih
        have hnil2 : (splitSlash ([] : List Char)).any startsWithDot = false := by
          simp [splitSlash, startsWithDot]
        rw [hnil2] at ih
        simp at ih ⊢
        exact Or.inl ih
    · rw [splitSlash_append, List.any_append]
      simp at ih ⊢
      exact Or.inl ih

/-- C10: when a component of the crawl root itself begins with a dot, that
dotted component survives into the slash split of every directory path that
os.walk yields below the root (the root string itself and its pyJoin
extensions by child names, the WalkDir predicate), so every walk entry is
skipped: the first pass state stays empty and the printed report is empty. -/
theorem c10_dotted_root_empty_run (root cwd : List Char)
    (read : List Char → Option (List Char))
    (walk : List (List Char × List (List Char)))
    (hroot : (splitSlash root).any startsWithDot = true)
    (hwalk : ∀ e ∈ walk, WalkDir root e.1) :
    pass1 root cwd read walk = ⟨[], [], []⟩ ∧
    crawl_and_verify root cwd read walk = [] := by
  have hmain : ∀ (W : List (List Char × List (List Char))),
      (∀ e ∈ W, WalkDir root e.1) →
      ∀ st, W.foldl (walkStep root cwd read) st = st := by
    intro W
    induction W with
    | nil => intro _ st; rfl
    | cons e W ih =>
      intro hW st
      rw [List.foldl_cons]
      have hskip : (splitSlash e.1).any startsWithDot = true :=
        walkDir_dotted hroot (hW e (by simp))
      have hstep : walkStep root cwd read st e = st := by
        simp [walkStep, hskip]
      rw [hstep]
      exact ih (fun e2 he2 => hW e2 (by simp [he2])) st
  have h1 : pass1 root cwd read walk = ⟨[], [], []⟩ := hmain walk hwalk _
  refine ⟨h1, ?_⟩
  unfold crawl_and_verify
  rw [h1]
  rfl

/-- Witness for c10_dotted_root_empty_run with a root that ends in a slash
and a walk that contains a subdirectory entry, the shape os.walk produces
there: joining the trailing slash root with the child name adds no second
separator. -/
theorem c10_dotted_root_empty_run_witness :
    pass1 ("./".data) ("/c".data) (fun _ => none)
      [("./".data, ["a.glsl".data]), ("./sub".data, ["b.h".data])] =
      ⟨[], [], []⟩ ∧
    crawl_and_verify ("./".data) ("/c".data) (fun _ => none)
      [("./".data, ["a.glsl".data]), ("./sub".data, ["b.h".data])] = [] := by
  refine c10_dotted_root_empty_run ("./".data) ("/c".data) (fun _ => none)
    [("./".data, ["a.glsl".data]), ("./sub".data, ["b.h".data])]
    (by decide) ?_
  intro e he
  rcases List.mem_cons.mp he with h1 | h2
  · subst h1
    exact WalkDir.top
  · rw [List.mem_singleton] at h2
    subst h2
    have he2 : ("./sub".data : List Char) = pyJoin ("./".data) ("sub".data) := by
      decide
    show WalkDir ("./".data) ("./sub".data)
    rw [he2]
    exact WalkDir.sub WalkDir.top (by decide) (by decide) (by decide)
      (by decide)
